import Mathlib

/-!
Verification development for the chembalance core: a shallow embedding of the
notation scanner, the semantic validator, the compound simplifier, the linear
system builder and the Gaussian-elimination solver, with JavaScript numbers
idealised as exact rationals (`ℚ`).

The scanner in the source is a single composite regular expression executed
with the `g` and `i` flags; here it is hand-compiled into deterministic
parsing functions that reproduce the engine's leftmost-position, first-
alternative, greedy-with-backtracking semantics for that fixed pattern.
-/

namespace Chem

/-! ## Character classes of the regular expression (with the `i` flag) -/

/-- Model of the regex class `\s` (the whitespace characters that occur in
practice; code points 32, 9, 10, 13). -/
def isSpaceC (c : Char) : Bool :=
  c.toNat = 32 || c.toNat = 9 || c.toNat = 10 || c.toNat = 13

/-- Model of the regex class `[0-9]` (code points 48–57). -/
def isDigitC (c : Char) : Bool :=
  48 ≤ c.toNat && c.toNat ≤ 57

/-- Model of `[A-Z]` and `[a-z]` under the `i` (ignore-case) flag: each of the
two classes matches every ASCII letter (65–90 and 97–122). -/
def isAlphaC (c : Char) : Bool :=
  (65 ≤ c.toNat && c.toNat ≤ 90) || (97 ≤ c.toNat && c.toNat ≤ 122)

/-- Model of the regex class `\w`. -/
def isWordC (c : Char) : Bool :=
  isAlphaC c || isDigitC c || c = '_'

/-- The character class `[\w\s\d\*\[\]\.]` used for the raw text between
brackets. -/
def isBracketClassC (c : Char) : Bool :=
  isWordC c || isSpaceC c || c = '*' || c = '[' || c = ']' || c = '.'

/-! ## The number pattern `[\+\-]?\s*[0-9]*\s*[.]{0,1}\s*[0-9]+` -/

def skipSpaces : List Char → List Char
  | [] => []
  | c :: t => if isSpaceC c then skipSpaces t else c :: t

/-- Maximal prefix satisfying `p`, with the remainder. -/
def spanB (p : Char → Bool) : List Char → List Char × List Char
  | [] => ([], [])
  | c :: t =>
    if p c then
      let r := spanB p t
      (c :: r.1, r.2)
    else ([], c :: t)

def spanDigits : List Char → List Char × List Char := spanB isDigitC

def digitsVal (ds : List Char) : Nat :=
  ds.foldl (fun a c => 10 * a + (c.toNat - 48)) 0

/-- Value of a decimal numeral `d1 . d2` with sign, as `Number` parses the
matched text once its inner whitespace is removed. -/
def decVal (sgn : ℚ) (d1 d2 : List Char) : ℚ :=
  sgn * ((digitsVal d1 : ℚ) + (digitsVal d2 : ℚ) / 10 ^ d2.length)

/-- Is the head of the list the character `c`? -/
def headIs (c : Char) : List Char → Bool
  | [] => false
  | x :: _ => x = c

/--
Deterministic compilation of the number pattern.  The greedy/backtracking
behaviour of the regex engine on this pattern reduces to: optional sign,
spaces, a maximal digit run `d1`; then, if (after spaces) a dot followed by
(spaces and) a digit run `d2` is present, the match extends through `d2`;
otherwise, if (after spaces) another digit run follows, the match extends
through that run and the two runs concatenate; otherwise the match ends
right after `d1` (backtracking gives the final `[0-9]+` the last digit of
`d1`).  Returns the parsed value and the remaining input.

Here `matchNumTail` is the pattern after the optional sign: spaces, then the
digit-run / dot / digit-run structure, against the already space-stripped
input `l2`.
-/
def matchNumTail (sgn : ℚ) (l2 : List Char) : Option (ℚ × List Char) :=
  let s1 := spanDigits l2
  if s1.1.isEmpty then
    if headIs '.' s1.2 then
      let s2 := spanDigits (skipSpaces s1.2.tail)
      if s2.1.isEmpty then none else some (decVal sgn [] s2.1, s2.2)
    else none
  else
    let l4 := skipSpaces s1.2
    if headIs '.' l4 then
      let s2 := spanDigits (skipSpaces l4.tail)
      if s2.1.isEmpty then some (sgn * (digitsVal s1.1 : ℚ), s1.2)
      else some (decVal sgn s1.1 s2.1, s2.2)
    else
      let s2 := spanDigits l4
      if s2.1.isEmpty then some (sgn * (digitsVal s1.1 : ℚ), s1.2)
      else some (sgn * (digitsVal (s1.1 ++ s2.1) : ℚ), s2.2)

def matchNumber (l : List Char) : Option (ℚ × List Char) :=
  match l with
  | [] => matchNumTail 1 (skipSpaces [])
  | x :: t =>
    if x = '+' then matchNumTail 1 (skipSpaces t)
    else if x = '-' then matchNumTail (-1) (skipSpaces t)
    else matchNumTail 1 (skipSpaces (x :: t))

/-! ## The optional groups around a formula or element -/

/-- The optional leading-multiplier group `(?:\s*(Num)\s*\*\s*)?`, anchored.
On failure nothing is consumed. -/
def tryLeadMult (l : List Char) : Option ℚ × List Char :=
  match matchNumber (skipSpaces l) with
  | none => (none, l)
  | some (v, r) =>
    if headIs '*' (skipSpaces r) then (some v, skipSpaces (skipSpaces r).tail)
    else (none, l)

/-- The optional trailing-multiplier group of the element alternative,
`(?:\s*\*\s*\+{0,1}\s*(Num)\s*)?`. -/
def tryTrailMultE (l : List Char) : Option ℚ × List Char :=
  if headIs '*' (skipSpaces l) then
    let r2 := skipSpaces (skipSpaces l).tail
    let r3 := if headIs '+' r2 then skipSpaces r2.tail else r2
    match matchNumber r3 with
    | some (v, r4) => (some v, skipSpaces r4)
    | none => (none, l)
  else (none, l)

/-- The optional trailing-multiplier group of the formula alternative.  In the
source the final `\s*` is written `\s*` inside a template literal, so it
reaches the engine as the two characters `s*`: a run of literal `s`
(case-insensitively, because of the `i` flag) instead of whitespace. -/
def tryTrailMultF (l : List Char) : Option ℚ × List Char :=
  if headIs '*' (skipSpaces l) then
    let r2 := skipSpaces (skipSpaces l).tail
    let r3 := if headIs '+' r2 then skipSpaces r2.tail else r2
    match matchNumber r3 with
    | some (v, r4) => (some v, r4.dropWhile (fun c => c = 's' || c = 'S'))
    | none => (none, l)
  else (none, l)

/-- The optional charge group `(?:\s*\^\s*(Num)\s*)?`. -/
def tryCharge (l : List Char) : Option ℚ × List Char :=
  if headIs '^' (skipSpaces l) then
    match matchNumber (skipSpaces (skipSpaces l).tail) with
    | some (v, r2) => (some v, skipSpaces r2)
    | none => (none, l)
  else (none, l)

/-! ## One match of the composite pattern -/

/-- The raw data of one regex match after the group post-processing performed
by `scan`: group names lose their `ELM_`/`FRM_` prefixes, `MULT_A`/`MULT_B`
both become `COUNT` (multiplying when both are present), and numeric groups
are parsed by `Number`. -/
structure RawMatch where
  sum : Bool
  yld : Bool
  element : Option String
  inner : Option (List Char)
  count : Option ℚ
  charge : Option ℚ
  free : Option ℚ
deriving Repr, DecidableEq

def RawMatch.empty : RawMatch := ⟨false, false, none, none, none, none, none⟩

/-- `COUNT` receives `MULT_A` and then `MULT_B`; when both are present the
second multiplies the first (the post-processing multiplies a number into an
existing numeric value). -/
def combineCount : Option ℚ → Option ℚ → Option ℚ
  | some a, some b => some (a * b)
  | some a, none => some a
  | none, some b => some b
  | none, none => none

/-- The `(?<SUM>[\+])` alternative. -/
def sumAlt (l : List Char) : Option (RawMatch × List Char) :=
  if headIs '+' l then some ({ RawMatch.empty with sum := true }, l.tail) else none

/-- The `(?<YIELD>[⇒])` alternative. -/
def yieldAlt (l : List Char) : Option (RawMatch × List Char) :=
  if headIs '⇒' l then some ({ RawMatch.empty with yld := true }, l.tail) else none

/-- Index of the last occurrence of `c`, if any. -/
def lastIdxOf (c : Char) : List Char → Option Nat
  | [] => none
  | x :: t =>
    match lastIdxOf c t with
    | some i => some (i + 1)
    | none => if x = c then some 0 else none

/-- Greedy `([\w\s\d\*\[\]\.]*)\]`: the class run is maximal and then gives
characters back until the closing `]`; hence the content is everything up to
the last `]` inside the maximal run. -/
def lastBracketSplit (run : List Char) : Option (List Char × List Char) :=
  match lastIdxOf ']' run with
  | none => none
  | some i => some (run.take i, run.drop (i + 1))

/-- The bracketed-formula alternative. -/
def bracketAlt (l : List Char) : Option (RawMatch × List Char) :=
  let lead := tryLeadMult l
  if headIs '[' lead.2 then
    let ra := spanB isBracketClassC lead.2.tail
    match lastBracketSplit ra.1 with
    | none => none
    | some (content, runTail) =>
      let r0 := runTail ++ ra.2
      let mb := tryTrailMultF r0
      let ch := tryCharge mb.2
      some ({ RawMatch.empty with
                inner := if content.isEmpty then none else some content,
                count := combineCount lead.1 mb.1,
                charge := ch.1 }, ch.2)
  else none

/-- The element alternative: optional leading multiplier, `[A-Z][a-z]?` (both
classes ignore case), optional trailing multiplier, optional `^`-charge. -/
def elementAlt (l : List Char) : Option (RawMatch × List Char) :=
  let lead := tryLeadMult l
  match lead.2 with
  | [] => none
  | c :: l2 =>
    if isAlphaC c then
      let nm : List Char × List Char :=
        match l2 with
        | [] => ([c], [])
        | d :: t => if isAlphaC d then ([c, d], t) else ([c], d :: t)
      let mb := tryTrailMultE nm.2
      let ch := tryCharge mb.2
      some ({ RawMatch.empty with
                element := some (String.mk nm.1),
                count := combineCount lead.1 mb.1,
                charge := ch.1 }, ch.2)
    else none

/-- The free-charge alternative: a bare number. -/
def freeChargeAlt (l : List Char) : Option (RawMatch × List Char) :=
  match matchNumber l with
  | some (v, r) => some ({ RawMatch.empty with free := some v }, r)
  | none => none

/-- All alternatives at one position, in the pattern's order. -/
def tryAt (l : List Char) : Option (RawMatch × List Char) :=
  match sumAlt l with
  | some r => some r
  | none =>
    match bracketAlt l with
    | some r => some r
    | none =>
      match elementAlt l with
      | some r => some r
      | none =>
        match freeChargeAlt l with
        | some r => some r
        | none => yieldAlt l

/-- One `regex.exec` step: the match at the leftmost position where some
alternative matches, together with the rest of the input after the match. -/
def exec : List Char → Option (RawMatch × List Char)
  | [] => none
  | c :: t =>
    match tryAt (c :: t) with
    | some r => some r
    | none => exec t

/-! ## The AST

The source's `Match` records form the AST; the `BRACKET` field holds either
the raw inner text (when its length is at most 2) or a recursively scanned
token list.
-/

mutual
inductive Tok : Type where
  | mk (sum yld : Bool) (element : Option String) (bracket : BracketF)
       (count charge free : Option ℚ)
inductive BracketF : Type where
  | nb
  | raw (s : List Char)
  | ast (ts : TokList)
inductive TokList : Type where
  | nil
  | cons (t : Tok) (ts : TokList)
end

def Tok.sum : Tok → Bool
  | .mk s _ _ _ _ _ _ => s

def Tok.yld : Tok → Bool
  | .mk _ y _ _ _ _ _ => y

def Tok.element : Tok → Option String
  | .mk _ _ e _ _ _ _ => e

def Tok.bracket : Tok → BracketF
  | .mk _ _ _ b _ _ _ => b

def Tok.count : Tok → Option ℚ
  | .mk _ _ _ _ c _ _ => c

def Tok.charge : Tok → Option ℚ
  | .mk _ _ _ _ _ c _ => c

def Tok.free : Tok → Option ℚ
  | .mk _ _ _ _ _ _ f => f

def TokList.toList : TokList → List Tok
  | .nil => []
  | .cons t ts => t :: ts.toList

/--
The scanning loop: repeatedly `exec`, post-process each match, and re-scan
the bracket content recursively when its raw length exceeds 2.  The loop of
the source terminates because every match consumes at least one character;
here the same argument is expressed through a fuel parameter, and
`scan_total` below proves that fuel `length + 1` always suffices.
-/
def scanFL : Nat → List Char → Option TokList
  | 0, _ => none
  | fuel + 1, l =>
    match exec l with
    | none => some .nil
    | some (m, rest) =>
      let br : Option BracketF :=
        match m.inner with
        | none => some .nb
        | some s => if s.length > 2 then (scanFL fuel s).map .ast else some (.raw s)
      match br, scanFL fuel rest with
      | some b, some ts =>
        some (.cons (Tok.mk m.sum m.yld m.element b m.count m.charge m.free) ts)
      | _, _ => none

/-- `scan` on a character list. -/
def scanL (l : List Char) : TokList := (scanFL (l.length + 1) l).getD .nil

/-- `scan(text)`: the top-level AST as a list of tokens. -/
def scan (s : String) : List Tok := (scanL s.toList).toList

/-! ## The compound simplifier -/

/-- JavaScript truthiness of an optional number (`undefined`, `0` and `NaN`
are falsy; here `none` and `0`). -/
def truthyQ : Option ℚ → Bool
  | none => false
  | some q => decide (q ≠ 0)

/-- `x || 1` on an optional number. -/
def jsOr1 (o : Option ℚ) : ℚ :=
  match o with
  | some q => if q = 0 then 1 else q
  | none => 1

/-- `x || 0` on an optional number. -/
def jsOr0 (o : Option ℚ) : ℚ :=
  match o with
  | some q => q
  | none => 0

/-- The simplified form of one compound: the element-name-to-count entries in
insertion order (the object's `CHARGE` key, created first, is kept as the
separate `charge` field), plus the private default-coefficient marker. -/
structure AbsTok where
  charge : ℚ
  atoms : List (String × ℚ)
  pinned : Option ℚ
deriving Repr, DecidableEq

/-- Insert-or-add semantics of `abstract[elm] = c` / `abstract[elm] += c`. -/
def addAtom (ats : List (String × ℚ)) (k : String) (v : ℚ) : List (String × ℚ) :=
  if ats.any (fun p => p.1 = k) then
    ats.map (fun p => if p.1 = k then (p.1, p.2 + v) else p)
  else ats ++ [(k, v)]

mutual
/-- `simplifyCompound(token, branch)`.  An `ELEMENT` token emits its one
atom; a `BRACKET` token records the default coefficient when top-level,
multiplies children by its own count when nested, and takes only its own
charge; a `FREE_CHARGE` token is charge only; other tokens simplify to
nothing. -/
def simplifyCompound (t : Tok) (branch : Bool) : Option AbsTok :=
  match t with
  | .mk _ _ (some el) _ cnt chg _ => some ⟨jsOr0 chg, [(el, jsOr1 cnt)], none⟩
  | .mk _ _ none (.raw _) cnt chg _ =>
    some ⟨jsOr0 chg, [], if branch = false && truthyQ cnt then cnt else none⟩
  | .mk _ _ none (.ast body) cnt chg _ =>
    some ⟨jsOr0 chg, simplifyBody body (if branch then jsOr1 cnt else 1) [],
          if branch = false && truthyQ cnt then cnt else none⟩
  | .mk _ _ none .nb _ _ (some v) => some ⟨v, [], none⟩
  | .mk _ _ none .nb _ _ none => none

/-- The loop over a bracket's body: each child is simplified with
`branch = true` and its atoms are accumulated, multiplied by the bracket's
effective count. -/
def simplifyBody (body : TokList) (count : ℚ) (acc : List (String × ℚ)) :
    List (String × ℚ) :=
  match body with
  | .nil => acc
  | .cons item rest =>
    match simplifyCompound item true with
    | none => simplifyBody rest count acc
    | some abs =>
      simplifyBody rest count
        (abs.atoms.foldl (fun a p => addAtom a p.1 (count * p.2)) acc)
end

/-! ## The semantic validator -/

/-- Index of the first `YIELD` token, if any (`findIndex`). -/
def yieldIdx? (ast : List Tok) : Option Nat := ast.findIdx? Tok.yld

/-- Index of the last `YIELD` token, if any (`findLastIndex`). -/
def lastYieldIdx? (ast : List Tok) : Option Nat :=
  (ast.reverse.findIdx? Tok.yld).map (fun i => ast.length - 1 - i)

/-- The element names of a simplified compound: its keys except `CHARGE`. -/
def AbsTok.keys (t : AbsTok) : List String := t.atoms.map Prod.fst

/-- `mustHaveTheSameElements` succeeds exactly when the two sides produce the
same set of element names, charge excluded. -/
def sameElements (L R : List AbsTok) : Bool :=
  let eL := (L.map AbsTok.keys).flatten
  let eR := (R.map AbsTok.keys).flatten
  eL.all (fun k => eR.contains k) && eR.all (fun k => eL.contains k)

/-- The number of compounds carrying a (truthy) default coefficient. -/
def pinCount (L R : List AbsTok) : Nat :=
  ((L ++ R).filter (fun t => truthyQ t.pinned)).length

/-! ## The linear system builder (`makeAandB`) -/

/-- `Object.keys` of a simplified compound: `CHARGE` first, then the element
names in insertion order. -/
def tokKeys (t : AbsTok) : List String := "CHARGE" :: t.atoms.map Prod.fst

/-- First-seen-order set insertion (the `Set` of the source preserves
insertion order). -/
def insertNew (acc : List String) (k : String) : List String :=
  if acc.contains k then acc else acc ++ [k]

/-- The unique symbols across all compounds, in first-seen order. -/
def elementsList (comps : List AbsTok) : List String :=
  comps.foldl (fun acc t => (tokKeys t).foldl insertNew acc) []

/-- `token[key]` with `CHARGE` resolving to the charge field. -/
def lookupSym (t : AbsTok) (k : String) : ℚ :=
  if k = "CHARGE" then t.charge else ((t.atoms.lookup k).getD 0)

/-- The fold behind `pinnedIdxCoeff`: position `i`, accumulator
`(index, coefficient)`. -/
def pinGo : List AbsTok → Nat → Nat × ℚ → Nat × ℚ
  | [], _, acc => acc
  | t :: ts, i, acc =>
    pinGo ts (i + 1) (if truthyQ t.pinned then (i, (t.pinned).getD 1) else acc)

/-- The index and value of the default coefficient: the last compound with a
truthy marker wins; without one, index 0 and coefficient 1. -/
def pinnedIdxCoeff (comps : List AbsTok) : Nat × ℚ :=
  pinGo comps 0 (0, 1)

/-- `row[i] = v` on a JavaScript array: assigning past the end grows the
array (the only reachable case pads nothing). -/
def jsArraySet (l : List ℚ) (i : Nat) (v : ℚ) : List ℚ :=
  if i < l.length then l.set i v else l ++ List.replicate (i - l.length) 0 ++ [v]

/-- Matrices as row lists of rationals. -/
abbrev Mat := List (List ℚ)

/-- One row of `A`: the symbol's counts over the left compounds, then the
negated counts over the right compounds (a missing symbol — row index out of
range — yields zeros). -/
def buildRow (left right : List AbsTok) (sym : Option String) : List ℚ :=
  (left.map (fun t => match sym with | some k => lookupSym t k | none => 0)) ++
  (right.map (fun t => match sym with | some k => -(lookupSym t k) | none => 0))

/-- `makeAandB(left, right)`: one row per unique symbol (entry = the
compound's count for that symbol, right side negated, absent = 0), then one
pinning row that is zero except for a 1 in the pinned compound's column; `B`
is zero except for its last row, which holds the pinned coefficient. -/
def makeAandB (left right : List AbsTok) : Mat × Mat :=
  let comps := left ++ right
  let elements := elementsList comps
  let nE := elements.length
  let ic := pinnedIdxCoeff comps
  let A0 := (List.range (nE + 1)).map (fun i => buildRow left right (elements.get? i))
  let A := A0.set nE (jsArraySet (buildRow left right none) ic.1 1)
  let B := List.replicate nE ([(0 : ℚ)]) ++ [[ic.2]]
  (A, B)

/-! ## The solver -/

/-- The error conditions surfaced by the pipeline. -/
inductive Err : Type where
  | missingYield
  | duplicateYield
  | elementsMismatch
  | tooManyCoefficients
  | noSolutionFound
  | dims
deriving Repr, DecidableEq

/-- `M[i][j]` with out-of-range reads as 0 (only rectangular in-range reads
occur on the reachable paths). -/
def mget (M : Mat) (i j : Nat) : ℚ := ((M.getD i []).getD j 0)

/-- `Math.abs`. -/
def qabs (q : ℚ) : ℚ := if q < 0 then -q else q

/-- The transposition performed by `transpose` (rectangular input). -/
def transposeM (M : Mat) : Mat :=
  (List.range (M.headD []).length).map (fun j => M.map (fun row => row.getD j 0))

/-- `transpose`, with the source's emptiness guard. -/
def transposeE (M : Mat) : Except Err Mat :=
  if M.isEmpty then .error .dims else .ok (transposeM M)

/-- The product computed by `multiply` (rectangular inputs). -/
def mulM (A B : Mat) : Mat :=
  A.map (fun row =>
    (List.range (B.headD []).length).map (fun j =>
      ((List.range ((A.headD []).length)).map
        (fun k => (row.getD k 0) * mget B k j)).foldl (· + ·) 0))

/-- `multiply`, with the source's compatibility guard. -/
def multiplyE (A B : Mat) : Except Err Mat :=
  if A.isEmpty || B.isEmpty || (A.headD []).length ≠ B.length then .error .dims
  else .ok (mulM A B)

/-- `findPivot(M, k)`: the row at or below `k` whose entry in column `k` has
the largest absolute value (strictly-greater comparisons, so the first
maximum wins). -/
def findPivot (M : Mat) (k : Nat) : Nat :=
  (List.range' (k + 1) (M.length - (k + 1))).foldl
    (fun imax i => if qabs (mget M i k) > qabs (mget M imax k) then i else imax) k

/-- `swap` of two rows. -/
def swapRows (M : Mat) (i j : Nat) : Mat :=
  if i = j then M else (M.set i (M.getD j [])).set j (M.getD i [])

/-- The inner row update of the elimination: columns left of the pivot are
untouched, the pivot column becomes 0, later columns subtract `c` times the
pivot row. -/
def elimRow (pivotRow : List ℚ) (k : Nat) (row : List ℚ) : List ℚ :=
  let c := row.getD k 0 / pivotRow.getD k 0
  row.mapIdx (fun j v => if j < k then v else if j = k then 0 else v - pivotRow.getD j 0 * c)

/-- The successful part of one elimination step: swap the selected pivot row
into place and eliminate the rows below it. -/
def elimNext (M : Mat) (k : Nat) : Mat :=
  let M1 := swapRows M k (findPivot M k)
  M1.mapIdx (fun i row => if i ≤ k then row else elimRow (M1.getD k []) k row)

/-- One elimination step: select the pivot by partial pivoting, fail when it
is exactly zero, otherwise swap it into place and eliminate the rows below. -/
def diagStep (M : Mat) (k : Nat) : Except Err Mat :=
  if mget M (findPivot M k) k = 0 then .error .noSolutionFound
  else .ok (elimNext M k)

/-- `diagonalize`: elimination steps for `k < min(rows, cols)`. -/
def diagonalize (M : Mat) : Except Err Mat :=
  (List.range (min M.length (M.headD []).length)).foldlM diagStep M

/-- One step of the back substitution at row `i`. -/
def subStep (M : Mat) (i : Nat) : Mat :=
  let m := M.length
  let x := mget M i m / mget M i i
  let M1 := M.mapIdx (fun j row =>
    if j < i then (row.set m (row.getD m 0 - x * row.getD i 0)).set i 0 else row)
  M1.mapIdx (fun j row => if j = i then (row.set m x).set i 1 else row)

/-- `substitute`: back substitution from the last row upwards. -/
def substitute (M : Mat) : Mat := (List.range M.length).reverse.foldl subStep M

/-- `extractX`: the last column. -/
def extractX (M : Mat) : List ℚ :=
  M.map (fun row => row.getD ((M.headD []).length - 1) 0)

/-- `gaussian_elimination_calc`: augment, diagonalize, substitute, extract. -/
def gaussianElim (A B : Mat) : Except Err (List ℚ) :=
  if A.length ≠ (A.headD []).length || A.length ≠ B.length then .error .dims
  else
    match diagonalize (List.zipWith (fun row b => row ++ [b.getD 0 0]) A B) with
    | .error e => .error e
    | .ok M => .ok (extractX (substitute M))

/-- `solve(A, B)`: form the normal equations and solve them by Gaussian
elimination with partial pivoting. -/
def solve (A B : Mat) : Except Err (List ℚ) :=
  match transposeE A with
  | .error e => .error e
  | .ok AT =>
    match multiplyE AT A with
    | .error e => .error e
    | .ok ATA =>
      match multiplyE AT B with
      | .error e => .error e
      | .ok ATB => gaussianElim ATA ATB

/-! ## The stringifier -/

/-- Floor of a rational (the representation keeps `den > 0`). -/
def qfloor (q : ℚ) : ℤ := q.num.ediv q.den

/-- `Math.round(c * 1e4) / 1e4`: JavaScript rounds half toward `+∞`. -/
def jsRound4 (q : ℚ) : ℚ := (qfloor (q * 10000 + 1/2) : ℚ) / 10000

/-- Decimal rendering of a non-negative rational whose reduced denominator
divides a power of ten (every number that reaches the stringifier does, and
JavaScript prints such values with their minimal decimal digits). -/
def qToStringPos (q : ℚ) : String :=
  match (List.range 40).find? (fun k => 10 ^ k % q.den = 0) with
  | none => "?"
  | some k =>
    let m := q.num.toNat * (10 ^ k / q.den)
    if k = 0 then Nat.repr m
    else
      let frac := Nat.repr (m % 10 ^ k)
      Nat.repr (m / 10 ^ k) ++ "." ++
        String.mk (List.replicate (k - frac.length) '0') ++ frac

/-- `n.toString()` for the values the stringifier prints. -/
def qToString (q : ℚ) : String :=
  if q < 0 then "-" ++ qToStringPos (-q) else qToStringPos q

/-- The subscript digit map; characters without an entry are dropped by the
`Array.prototype.join` of the source (`undefined` joins as the empty
string). -/
def subDigit (c : Char) : String :=
  if c = '0' then "₀" else if c = '1' then "₁" else if c = '2' then "₂"
  else if c = '3' then "₃" else if c = '4' then "₄" else if c = '5' then "₅"
  else if c = '6' then "₆" else if c = '7' then "₇" else if c = '8' then "₈"
  else if c = '9' then "₉" else if c = '.' then "." else ""

/-- The superscript digit map. -/
def supDigit (c : Char) : String :=
  if c = '0' then "⁰" else if c = '1' then "¹" else if c = '2' then "²"
  else if c = '3' then "³" else if c = '4' then "⁴" else if c = '5' then "⁵"
  else if c = '6' then "⁶" else if c = '7' then "⁷" else if c = '8' then "⁸"
  else if c = '9' then "⁹" else if c = '.' then "·" else ""

/-- `num2sub`. -/
def num2sub (q : ℚ) : String :=
  String.join ((qToString q).toList.map subDigit)

/-- `num2super`: a sign glyph for nonzero values, then superscript digits. -/
def num2super (q : ℚ) : String :=
  (if 0 < q then "⁺" else if q < 0 then "⁻" else "") ++
    String.join ((qToString q).toList.map supDigit)

/-- `stringifyElement`. -/
def stringifyElement (t : Tok) : String :=
  let COUNT := (t.count).getD 1
  let CHARGE := (t.charge).getD 0
  ((t.element).getD "") ++ (if COUNT ≠ 1 then num2sub COUNT else "") ++
    (if CHARGE ≠ 0 then num2super CHARGE else "")

mutual
/-- `stringifyFormula`: renders the body (a raw-string body renders as the
empty string), prefixes the plain count when `main`, and appends the
superscript charge. -/
def stringifyFormula (t : Tok) (main : Bool) : String :=
  match t with
  | .mk _ _ _ br cnt chg _ =>
    let COUNT := cnt.getD 1
    let CHARGE := chg.getD 0
    let str := match br with
      | .ast body => stringifyBody body
      | _ => ""
    (if main && COUNT ≠ 1 then qToString COUNT else "") ++ str ++
      (if CHARGE ≠ 0 then num2super CHARGE else "")

/-- The body loop of `stringifyFormula`: elements render directly; a nested
formula renders in parentheses with a subscript count, and only when its
count is truthy. -/
def stringifyBody (body : TokList) : String :=
  match body with
  | .nil => ""
  | .cons obj rest =>
    (match obj.element with
     | some _ => stringifyElement obj
     | none => "") ++
    (match obj.bracket with
     | .nb => ""
     | _ =>
       if truthyQ obj.count then
         "(" ++ stringifyFormula obj false ++ ")" ++
           (if (obj.count).getD 1 ≠ 1 then num2sub ((obj.count).getD 1) else "")
       else "") ++
    stringifyBody rest
end

/-- `stringifyFreeCharge`. -/
def stringifyFreeCharge (t : Tok) : String :=
  if truthyQ t.free then "+e" ++ num2super ((t.free).getD 0) else ""

/-- The per-token dispatch of `stringify` (`BRACKET`, then `ELEMENT`, then
`FREE_CHARGE`, then the operators). -/
def tokStr (obj : Tok) : String :=
  match obj.bracket with
  | .raw _ => stringifyFormula obj true
  | .ast _ => stringifyFormula obj true
  | .nb =>
    match obj.element with
    | some _ => stringifyElement obj
    | none =>
      match obj.free with
      | some _ => stringifyFreeCharge obj
      | none => if obj.yld then "⇒" else if obj.sum then "+" else ""

/-- `stringify`: each token's text followed by one space. -/
def stringify (ast : List Tok) : String :=
  ast.foldl (fun acc obj => acc ++ tokStr obj ++ " ") ""

/-! ## `compute` -/

/-- Write the computed coefficients back into the AST: each token that
simplified to a compound receives the next coefficient — multiplied into a
truthy `FREE_CHARGE`, assigned to `COUNT` otherwise. -/
def writeback : List Tok → List (Option AbsTok) → List ℚ → List Tok
  | [], _, _ => []
  | ts, [], _ => ts
  | t :: ts, _ :: os, [] => t :: writeback ts os []
  | t :: ts, none :: os, cs => t :: writeback ts os cs
  | t :: ts, some _ :: os, c :: cs =>
    (match t with
     | .mk s y el br cnt chg fr =>
       if truthyQ fr then Tok.mk s y el br cnt chg (fr.map (· * c))
       else Tok.mk s y el br (some c) chg fr) :: writeback ts os cs

/-- The computation pipeline up to the solver: scan, the three validator
checks, simplification, matrix construction and the least-squares solve with
4-decimal rounding.  Returns the AST, the per-token simplification results,
the two compound lists and the rounded coefficients. -/
def computeParts (s : String) :
    Except Err (List Tok × List (Option AbsTok) × List AbsTok × List AbsTok × List ℚ) :=
  let ast := scan s
  match yieldIdx? ast with
  | none => .error .missingYield
  | some idx =>
    if lastYieldIdx? ast ≠ some idx then .error .duplicateYield
    else
      let mapped := ast.map (fun t => simplifyCompound t false)
      let left := (mapped.take idx).reduceOption
      let right := (mapped.drop (idx + 1)).reduceOption
      if sameElements left right = false then .error .elementsMismatch
      else if pinCount left right > 1 then .error .tooManyCoefficients
      else
        let AB := makeAandB left right
        match solve AB.1 AB.2 with
        | .error e => .error e
        | .ok x => .ok (ast, mapped, left, right, x.map jsRound4)

/-- `compute`: the rounded coefficient vector (one entry per compound, left
to right) and the rendered result string. -/
def compute (s : String) : Except Err (List ℚ × String) :=
  match computeParts s with
  | .error e => .error e
  | .ok (ast, mapped, _, _, coeffs) =>
    .ok (coeffs, stringify (writeback ast mapped coeffs))

/-! ## Support definitions for the statements -/

deriving instance DecidableEq for Except

/-- The two compound lists and the returned (rounded) coefficients of a
successful computation. -/
def partsOf (s : String) : Option (List AbsTok × List AbsTok × List ℚ) :=
  match computeParts s with
  | .error _ => none
  | .ok (_, _, L, R, cs) => some (L, R, cs)

/-- Dot product. -/
def dotL (a b : List ℚ) : ℚ := (List.zipWith (· * ·) a b).sum

/-- Matrix-vector product, row-wise. -/
def matVec (A : Mat) (x : List ℚ) : List ℚ := A.map (fun row => dotL row x)

/-- The right-hand side as a plain vector (each row of `B` is a one-entry
row). -/
def flatB (B : Mat) : List ℚ := B.map (fun r => r.getD 0 0)

/-- Sum over compounds of `f(compound) × coefficient`. -/
def wsum (comps : List AbsTok) (xs : List ℚ) (f : AbsTok → ℚ) : ℚ :=
  (List.zipWith (fun t c => f t * c) comps xs).sum

/-- The conservation property of the specification as a Boolean checker: for
every element symbol of either side, the coefficient-weighted atom counts
agree across the two sides, and so do the coefficient-weighted charges. -/
def conservedB (L R : List AbsTok) (x : List ℚ) : Bool :=
  (((L ++ R).map AbsTok.keys).flatten.all (fun k =>
      wsum L (x.take L.length) (fun t => lookupSym t k)
        == wsum R (x.drop L.length) (fun t => lookupSym t k)))
  && (wsum L (x.take L.length) AbsTok.charge == wsum R (x.drop L.length) AbsTok.charge)

/-- The simple token shapes — `+`, `⇒`, and a bare element whose name has
one or two letters — on which the stringifier and the scanner are exact
inverses. -/
def simpleTokB (t : Tok) : Bool :=
  match t with
  | .mk false false (some el) .nb none none none =>
    decide (el.toList ≠ []) && decide (el.toList.length ≤ 2) && el.toList.all isAlphaC
  | .mk true false none .nb none none none => true
  | .mk false true none .nb none none none => true
  | _ => false

/-- Rebuild a `TokList` from a plain list (inverse of `TokList.toList`). -/
def ofTokList : List Tok → TokList
  | [] => .nil
  | t :: ts => .cons t (ofTokList ts)

/-- The character stream the stringifier renders for an AST. -/
def renderL (ts : List Tok) : List Char := (stringify ts).toList

/-- The facts about a residual input that let every optional group fail on
it: it starts with no whitespace, no numeral, and no `*` or `^`. -/
def restOK (l : List Char) : Prop :=
  skipSpaces l = l ∧ matchNumber l = none ∧ (∀ sgn, matchNumTail sgn l = none) ∧
  headIs '*' l = false ∧ headIs '^' l = false

/-! ## C1 -/

set_option maxHeartbeats 1600000 in
unseal Rat.mul Rat.inv Rat.add Rat.sub in
/-- C1, counterexample.  On `[H*1]⇒[H*3]` the computation succeeds (no
validator or solver error), the hydrogen coefficient `1/3` is rounded to
`0.3333`, and the returned coefficients violate hydrogen conservation:
`1 × 1 ≠ 3 × 0.3333`. -/
theorem C1_counterexample :
    partsOf "[H*1]⇒[H*3]"
      = some ([⟨0, [("H", 1)], none⟩], [⟨0, [("H", 3)], none⟩], [1, 3333 / 10000]) ∧
    conservedB [⟨0, [("H", 1)], none⟩] [⟨0, [("H", 3)], none⟩] [1, 3333 / 10000] = false := by
  constructor
  · decide
  · decide

/-! ## C2 -/

set_option maxHeartbeats 1600000 in
unseal Rat.mul Rat.inv Rat.add Rat.sub in
/-- C2, counterexample.  On the claim's input `[H*2]+[O*2]⇒[H*2 O]` no
compound carries a default-coefficient marker, so the first compound is
pinned to 1 and `compute` returns `[1, 0.5, 1]` rendered as
`H₂ + 0.5O₂ ⇒ H₂O ` — not `[2,1,2]` and not `2H₂ + O₂ ⇒ 2H₂O `. -/
theorem C2_counterexample :
    compute "[H*2]+[O*2]⇒[H*2 O]" = .ok ([1, 1 / 2, 1], "H₂ + 0.5O₂ ⇒ H₂O ") ∧
    ([1, 1 / 2, 1] : List ℚ) ≠ [2, 1, 2] ∧
    "H₂ + 0.5O₂ ⇒ H₂O " ≠ "2H₂ + O₂ ⇒ 2H₂O " := by
  refine ⟨by decide, by decide, by decide⟩

set_option maxHeartbeats 1600000 in
unseal Rat.mul Rat.inv Rat.add Rat.sub in
/-- C2, amended.  With the default coefficient 1 declared on the oxygen
compound — `[H*2]+1*[O*2]⇒[H*2 O]`, the form of the README's
default-coefficient example — `compute` returns the coefficient vector
`[2, 1, 2]` (one per compound, left to right) and renders
`2H₂ + O₂ ⇒ 2H₂O `. -/
theorem C2_amended_pinned :
    compute "[H*2]+1*[O*2]⇒[H*2 O]" = .ok ([2, 1, 2], "2H₂ + O₂ ⇒ 2H₂O ") := by
  decide

/-! ## C3 -/

set_option maxHeartbeats 1600000 in
unseal Rat.mul Rat.inv Rat.add Rat.sub in
/-- C3, counterexample.  On `[H*2 O]⇒[H*3 O]` no compound carries the
default-coefficient marker, the computation succeeds, and yet the first
compound's returned coefficient is `0.9091`, not `1`: the pinning row is
only one least-squares constraint among others and is not satisfied exactly
when the system is inconsistent. -/
theorem C3_counterexample :
    partsOf "[H*2 O]⇒[H*3 O]"
      = some ([⟨0, [("H", 2), ("O", 1)], none⟩], [⟨0, [("H", 3), ("O", 1)], none⟩],
              [9091 / 10000, 1591 / 2500]) ∧
    (([⟨0, [("H", 2), ("O", 1)], none⟩] ++ [⟨0, [("H", 3), ("O", 1)], none⟩] :
        List AbsTok).all (fun t => !truthyQ t.pinned)) = true ∧
    ((9091 : ℚ) / 10000 ≠ 1) := by
  refine ⟨by decide, by decide, by decide⟩

/-! ## C6 -/

theorem diagStep_error {M : Mat} {k : Nat} {e : Err} (h : diagStep M k = .error e) :
    e = .noSolutionFound := by
  unfold diagStep at h
  split at h
  · exact (Except.error.injEq _ _).mp h |>.symm
  · cases h

theorem foldlM_diagStep_error :
    ∀ (ks : List Nat) (M : Mat) (e : Err),
      List.foldlM diagStep M ks = .error e → e = .noSolutionFound := by
  intro ks
  induction ks with
  | nil => intro M e h; cases h
  | cons k ks ih =>
    intro M e h
    simp only [List.foldlM] at h
    cases hd : diagStep M k with
    | error e' =>
      rw [hd] at h
      cases h
      exact diagStep_error hd
    | ok M' =>
      rw [hd] at h
      exact ih M' e h

theorem gaussianElim_error {A B : Mat} {e : Err} (h : gaussianElim A B = .error e) :
    e = .dims ∨ e = .noSolutionFound := by
  unfold gaussianElim at h
  split at h
  · left; exact ((Except.error.injEq _ _).mp h).symm
  · split at h
    · right
      rename_i hd
      cases h
      exact foldlM_diagStep_error _ _ _ hd
    · cases h

theorem transposeE_error {M : Mat} {e : Err} (h : transposeE M = .error e) :
    e = .dims := by
  unfold transposeE at h
  split at h
  · cases h; rfl
  · cases h

theorem multiplyE_error {A B : Mat} {e : Err} (h : multiplyE A B = .error e) :
    e = .dims := by
  unfold multiplyE at h
  split at h
  · cases h; rfl
  · cases h

theorem solve_error {A B : Mat} {e : Err} (h : solve A B = .error e) :
    e = .dims ∨ e = .noSolutionFound := by
  unfold solve at h
  cases h1 : transposeE A with
  | error e1 => simp only [h1] at h; cases h; exact .inl (transposeE_error h1)
  | ok AT =>
    simp only [h1] at h
    cases h2 : multiplyE AT A with
    | error e2 => simp only [h2] at h; cases h; exact .inl (multiplyE_error h2)
    | ok ATA =>
      simp only [h2] at h
      cases h3 : multiplyE AT B with
      | error e3 => simp only [h3] at h; cases h; exact .inl (multiplyE_error h3)
      | ok ATB => simp only [h3] at h; exact gaussianElim_error h

/-- C6: with the single-yield check passed, `compute` raises
"Elements on both sides must be the same" exactly when the element-name sets
(charge excluded) of the simplified reactant and product sides differ; the
validator compares only which names occur, not their counts, and on this
error no coefficients are produced. -/
theorem C6_element_mismatch_iff (s : String) (idx : Nat)
    (h1 : yieldIdx? (scan s) = some idx)
    (h2 : lastYieldIdx? (scan s) = some idx) :
    (computeParts s = .error .elementsMismatch ↔
      sameElements
        ((((scan s).map (fun t => simplifyCompound t false)).take idx).reduceOption)
        ((((scan s).map (fun t => simplifyCompound t false)).drop (idx + 1)).reduceOption)
        = false) := by
  simp only [computeParts, h1, h2, ne_eq, not_true_eq_false, if_false]
  constructor
  · intro h
    by_contra hse
    rw [if_neg hse] at h
    split at h
    · cases h
    · split at h
      · rename_i hs
        cases h
        rcases solve_error hs with h' | h' <;> cases h'
      · cases h
  · intro hse
    rw [if_pos hse]

set_option maxHeartbeats 800000 in
unseal Rat.mul Rat.inv Rat.add Rat.sub in
/-- C6, witness: `[H*2]⇒[O*2]` has one yield, differing element sets, and
`compute` raises exactly the element-mismatch error; `[H*2]⇒[H*3]` has equal
element sets with unequal counts and passes the validator (its failure, if
any, would be a later one — it in fact computes). -/
theorem C6_witness :
    computeParts "[H*2]⇒[O*2]" = .error .elementsMismatch ∧
    computeParts "[H*2]⇒[H*3]" ≠ .error .elementsMismatch := by
  constructor
  · exact (C6_element_mismatch_iff "[H*2]⇒[O*2]" 1 (by decide) (by decide)).mpr (by decide)
  · intro h
    have := (C6_element_mismatch_iff "[H*2]⇒[H*3]" 1 (by decide) (by decide)).mp h
    revert this
    decide

/-! ## C7 -/

/-- Does the elimination hit a selected pivot that is exactly zero at some
step of the given step list? -/
def zeroPivotB (M : Mat) : List Nat → Bool
  | [] => false
  | k :: ks =>
    if mget M (findPivot M k) k = 0 then true else zeroPivotB (elimNext M k) ks

/-- The augmented normal-equations matrix `[AᵀA | AᵀB]` that the solver
eliminates. -/
def normalAug (A B : Mat) : Mat :=
  List.zipWith (fun row b => row ++ [b.getD 0 0]) (mulM (transposeM A) A)
    (mulM (transposeM A) B)

/-- The zero-pivot condition over the steps `diagonalize` actually runs. -/
def singularPivot (M : Mat) : Bool :=
  zeroPivotB M (List.range (min M.length (M.headD []).length))

theorem foldlM_diag_cases :
    ∀ (ks : List Nat) (M : Mat),
      (zeroPivotB M ks = true ∧ List.foldlM diagStep M ks = .error .noSolutionFound) ∨
      (zeroPivotB M ks = false ∧ ∃ M', List.foldlM diagStep M ks = .ok M') := by
  intro ks
  induction ks with
  | nil => exact fun M => .inr ⟨rfl, M, rfl⟩
  | cons k ks ih =>
    intro M
    by_cases hz : mget M (findPivot M k) k = 0
    · left
      constructor
      · simp [zeroPivotB, hz]
      · simp only [List.foldlM, diagStep, hz, if_true, Except.bind]
        rfl
    · have hstep : diagStep M k = .ok (elimNext M k) := by
        simp [diagStep, hz]
      rcases ih (elimNext M k) with ⟨h1, h2⟩ | ⟨h1, M', h2⟩
      · left
        refine ⟨by simp [zeroPivotB, hz, h1], ?_⟩
        simp only [List.foldlM, hstep]
        exact h2
      · right
        refine ⟨by simp [zeroPivotB, hz, h1], M', ?_⟩
        simp only [List.foldlM, hstep]
        exact h2

theorem diagonalize_cases (M : Mat) :
    (singularPivot M = true ∧ diagonalize M = .error .noSolutionFound) ∨
    (singularPivot M = false ∧ ∃ M', diagonalize M = .ok M') :=
  foldlM_diag_cases _ M

/-- C7: for a well-formed system (a nonempty rectangular `A` with at least
one column and a matching `B`), `solve` fails — with exactly the
"no solution found" error, and returning no coefficients — if and only if
Gaussian elimination on the augmented normal-equations matrix selects, by
partial pivoting, a pivot that is exactly zero at some step; otherwise it
returns a coefficient vector. -/
theorem C7_singular_iff (A B : Mat) (n : Nat) (hA : A ≠ [])
    (hrect : ∀ row ∈ A, row.length = n) (hn : 0 < n)
    (hB : B.length = A.length) :
    (solve A B = .error .noSolutionFound ↔ singularPivot (normalAug A B) = true) ∧
    (singularPivot (normalAug A B) = false → ∃ x, solve A B = .ok x) := by
  obtain ⟨a, A', rfl⟩ : ∃ a A', A = a :: A' := by
    cases A with
    | nil => exact absurd rfl hA
    | cons a A' => exact ⟨a, A', rfl⟩
  have hhead : ((a :: A').headD []).length = n := hrect a (by simp)
  -- the transpose guard passes
  have ht : transposeE (a :: A') = .ok (transposeM (a :: A')) := by
    simp [transposeE]
  -- shape facts about the transpose
  have hTlen : (transposeM (a :: A')).length = n := by
    simp only [transposeM, List.length_map, List.length_range, List.headD_cons]
    exact hrect a (List.mem_cons_self a A')
  obtain ⟨m, hn'⟩ : ∃ m, n = m + 1 := ⟨n - 1, (Nat.succ_pred_eq_of_pos hn).symm⟩
  have ha : a.length = m + 1 := by
    rw [← hn']
    exact hrect a (List.mem_cons_self a A')
  have hThead : (transposeM (a :: A')).headD [] =
      (a :: A').map (fun row => row.getD 0 0) := by
    simp only [transposeM, List.headD_cons, ha, List.range_succ_eq_map, List.map_cons,
      List.headD_cons]
  have hTheadlen : ((transposeM (a :: A')).headD []).length = (a :: A').length := by
    rw [hThead]
    simp
  have hTne : transposeM (a :: A') ≠ [] := by
    intro hc
    rw [hc] at hTlen
    simp [hn'] at hTlen
  -- the two multiplications pass their guards
  have hTheadlen' : (((transposeM (a :: A')).head?).getD []).length = (a :: A').length := by
    simpa [List.headD_eq_head?_getD] using hTheadlen
  have hBne : B ≠ [] := by
    intro hc
    rw [hc] at hB
    simp at hB
  have hm1 : multiplyE (transposeM (a :: A')) (a :: A')
      = .ok (mulM (transposeM (a :: A')) (a :: A')) := by
    simp [multiplyE, hTne, hTheadlen']
  have hm2 : multiplyE (transposeM (a :: A')) B
      = .ok (mulM (transposeM (a :: A')) B) := by
    simp [multiplyE, hTne, hTheadlen', hB, hBne]
  -- shapes of the normal matrix
  obtain ⟨t, T', hT⟩ : ∃ t T', transposeM (a :: A') = t :: T' := by
    cases hTc : transposeM (a :: A') with
    | nil => exact absurd hTc hTne
    | cons t T' => exact ⟨t, T', rfl⟩
  have hATAlen : (mulM (transposeM (a :: A')) (a :: A')).length = n := by
    simp [mulM, hTlen]
  have hATAhead : ((mulM (transposeM (a :: A')) (a :: A')).headD []).length = n := by
    rw [hT]
    simp only [mulM, List.map_cons, List.headD_cons, List.length_map, List.length_range]
    exact hrect a (List.mem_cons_self a A')
  have hATBlen : (mulM (transposeM (a :: A')) B).length = n := by
    simp [mulM, hTlen]
  -- the gaussian-elimination guard passes
  have hsolve : solve (a :: A') B =
      match diagonalize (normalAug (a :: A') B) with
      | .error e => .error e
      | .ok M => .ok (extractX (substitute M)) := by
    unfold solve
    rw [ht]
    simp only [hm1, hm2]
    unfold gaussianElim
    rw [if_neg ?_]
    · rfl
    · simp only [List.headD_eq_head?_getD] at hATAhead
      simp [hATAlen, hATAhead, hATBlen]
  rcases diagonalize_cases (normalAug (a :: A') B) with ⟨h1, h2⟩ | ⟨h1, M', h2⟩
  · constructor
    · rw [hsolve, h2]
      simp [h1]
    · intro hc
      rw [h1] at hc
      cases hc
  · constructor
    · rw [hsolve, h2]
      simp [h1]
    · intro _
      rw [hsolve, h2]
      exact ⟨_, rfl⟩

set_option maxHeartbeats 800000 in
unseal Rat.mul Rat.inv Rat.add Rat.sub in
/-- C7, witness: a rank-deficient system hits a zero pivot and fails with
"no solution found", and a full-rank one returns coefficients. -/
theorem C7_witness :
    solve [[1, -1], [1, -1]] [[0], [0]] = .error .noSolutionFound ∧
    ∃ x, solve [[1, -1], [0, 1], [1, 0]] [[0], [0], [1]] = .ok x := by
  constructor
  · exact (C7_singular_iff [[1, -1], [1, -1]] [[0], [0]] 2 (by decide)
      (by decide) (by decide) (by decide)).1.mpr (by decide)
  · exact (C7_singular_iff [[1, -1], [0, 1], [1, 0]] [[0], [0], [1]] 2 (by decide)
      (by decide) (by decide) (by decide)).2 (by decide)

/-! ## C8 -/

theorem pinGo_lt :
    ∀ (ts : List AbsTok) (i : Nat) (acc : Nat × ℚ) (n : Nat),
      acc.1 < n → i + ts.length ≤ n → (pinGo ts i acc).1 < n := by
  intro ts
  induction ts with
  | nil => intro i acc n h _; exact h
  | cons t ts ih =>
    intro i acc n hacc hlen
    simp only [pinGo]
    apply ih
    · by_cases hp : truthyQ t.pinned
      · simp only [hp, if_true]
        simp only [List.length_cons] at hlen
        omega
      · simp only [hp, if_false]
        exact hacc
    · simp only [List.length_cons] at hlen
      omega

theorem pinnedIdx_lt (comps : List AbsTok) (h : comps ≠ []) :
    (pinnedIdxCoeff comps).1 < comps.length := by
  apply pinGo_lt
  · cases comps with
    | nil => exact absurd rfl h
    | cons c cs => simp
  · simp

theorem buildRow_length (L R : List AbsTok) (sym : Option String) :
    (buildRow L R sym).length = L.length + R.length := by
  simp [buildRow]

theorem map_zero_replicate :
    ∀ (S : List AbsTok), S.map (fun _ => (0 : ℚ)) = List.replicate S.length 0 := by
  intro S
  induction S with
  | nil => rfl
  | cons t ts ih => simp [ih, List.replicate_succ]

theorem buildRow_none (L R : List AbsTok) :
    buildRow L R none = List.replicate (L.length + R.length) 0 := by
  simp only [buildRow]
  rw [map_zero_replicate, map_zero_replicate, List.replicate_add]

/-- C8, counterexample.  On the empty pair of compound lists the builder
still writes the pinning 1 into the (empty) final row, growing it: `A`
equals `[[1]]`, whose row has 1 entry rather than `left length + right
length = 0`. -/
theorem C8_counterexample :
    makeAandB [] [] = ([[1]], [[1]]) ∧
    ((makeAandB [] []).1.headD []).length ≠ 0 := by
  constructor
  · decide
  · decide

theorem pinnedIdx_lt' (L R : List AbsTok) (h : L.length + R.length ≠ 0) :
    (pinnedIdxCoeff (L ++ R)).1 < L.length + R.length := by
  have hcomps : (L ++ R) ≠ [] := by
    intro hc
    apply h
    have := congrArg List.length hc
    simpa using this
  have := pinnedIdx_lt (L ++ R) hcomps
  simpa using this

theorem makeA_last_val (L R : List AbsTok) (h : L.length + R.length ≠ 0) :
    jsArraySet (buildRow L R none) (pinnedIdxCoeff (L ++ R)).1 1
      = (List.replicate (L.length + R.length) 0).set (pinnedIdxCoeff (L ++ R)).1 1 := by
  rw [buildRow_none, jsArraySet, if_pos]
  simpa using pinnedIdx_lt' L R h

theorem makeA_length (L R : List AbsTok) :
    ((makeAandB L R).1).length = (elementsList (L ++ R)).length + 1 := by
  simp [makeAandB]

theorem makeA_row_symbol (L R : List AbsTok) (i : Nat) (k : String)
    (hk : (elementsList (L ++ R))[i]? = some k) :
    ((makeAandB L R).1)[i]? = some (buildRow L R (some k)) := by
  have hi : i < (elementsList (L ++ R)).length := by
    by_contra hge
    rw [List.getElem?_eq_none (Nat.le_of_not_lt hge)] at hk
    cases hk
  simp only [makeAandB]
  rw [List.getElem?_set_ne (by omega)]
  rw [List.getElem?_map, List.getElem?_range (by omega)]
  simp only [Option.map_some', List.get?_eq_getElem?, hk]

theorem makeA_last_row (L R : List AbsTok) (h : L.length + R.length ≠ 0) :
    ((makeAandB L R).1)[(elementsList (L ++ R)).length]?
      = some ((List.replicate (L.length + R.length) 0).set (pinnedIdxCoeff (L ++ R)).1 1) := by
  simp only [makeAandB]
  rw [List.getElem?_set_eq_of_lt, makeA_last_val L R h]
  simp

theorem makeB_eq (L R : List AbsTok) :
    (makeAandB L R).2
      = List.replicate (elementsList (L ++ R)).length [0]
          ++ [[(pinnedIdxCoeff (L ++ R)).2]] := by
  simp [makeAandB]

/-- C8, amended.  For every pair of simplified compound lists with at least
one compound: `A` has (number of distinct symbol keys, charge accumulator
included) + 1 rows and `left length + right length` columns; row `i` holds
the `i`-th symbol's per-compound counts, right side negated and absent
symbols 0; the final row is the unit vector selecting the pinned compound's
column (column 0 when nothing is pinned); `B` is zero except its final row,
which holds the pinned coefficient (1 by default). -/
theorem C8_structure (L R : List AbsTok) (h : L.length + R.length ≠ 0) :
    ((makeAandB L R).1).length = (elementsList (L ++ R)).length + 1 ∧
    (∀ row ∈ (makeAandB L R).1, row.length = L.length + R.length) ∧
    (∀ (i : Nat) (k : String), (elementsList (L ++ R))[i]? = some k →
        ((makeAandB L R).1)[i]? = some (buildRow L R (some k))) ∧
    ((makeAandB L R).1)[(elementsList (L ++ R)).length]?
      = some ((List.replicate (L.length + R.length) 0).set (pinnedIdxCoeff (L ++ R)).1 1) ∧
    (pinnedIdxCoeff (L ++ R)).1 < L.length + R.length ∧
    (makeAandB L R).2
      = List.replicate (elementsList (L ++ R)).length [0] ++ [[(pinnedIdxCoeff (L ++ R)).2]] := by
  refine ⟨makeA_length L R, ?_, makeA_row_symbol L R, makeA_last_row L R h,
    pinnedIdx_lt' L R h, makeB_eq L R⟩
  intro row hrow
  simp only [makeAandB] at hrow
  rcases List.mem_or_eq_of_mem_set hrow with hrow' | rfl
  · obtain ⟨i, _, rfl⟩ := List.mem_map.mp hrow'
    exact buildRow_length L R _
  · rw [makeA_last_val L R h]
    simp

/-- C8, witness: a two-compound instance with a pinned right compound. -/
theorem C8_witness :
    ((makeAandB [⟨0, [("H", 2)], none⟩] [⟨0, [("H", 1)], some 3⟩]).1).length
      = (elementsList ([⟨0, [("H", 2)], none⟩] ++ [⟨0, [("H", 1)], some 3⟩])).length + 1 ∧
    ((makeAandB [⟨0, [("H", 2)], none⟩] [⟨0, [("H", 1)], some 3⟩]).1)[
        (elementsList ([⟨0, [("H", 2)], none⟩] ++ [⟨0, [("H", 1)], some 3⟩])).length]?
      = some ((List.replicate 2 0).set
          (pinnedIdxCoeff ([⟨0, [("H", 2)], none⟩] ++ [⟨0, [("H", 1)], some 3⟩])).1 1) :=
  ⟨(C8_structure [⟨0, [("H", 2)], none⟩] [⟨0, [("H", 1)], some 3⟩] (by decide)).1,
   (C8_structure [⟨0, [("H", 2)], none⟩] [⟨0, [("H", 1)], some 3⟩] (by decide)).2.2.2.1⟩

/-! ## C1 and C3, amended: exact solutions of the built system conserve -/

theorem dotL_append (a b x : List ℚ) (h : a.length ≤ x.length) :
    dotL (a ++ b) x = dotL a (x.take a.length) + dotL b (x.drop a.length) := by
  unfold dotL
  conv_lhs => rw [← List.take_append_drop a.length x]
  rw [List.zipWith_append _ _ _ _ _ (by simp [Nat.min_eq_left h])]
  rw [List.sum_append]

theorem dotL_map_left (f : AbsTok → ℚ) (S : List AbsTok) (x : List ℚ) :
    dotL (S.map f) x = wsum S x f := by
  unfold dotL wsum
  rw [List.zipWith_map_left]

theorem sum_map_negq : ∀ (l : List ℚ), (l.map Neg.neg).sum = -l.sum := by
  intro l
  induction l with
  | nil => simp
  | cons a l ih =>
    simp only [List.map_cons, List.sum_cons, ih]
    ring

theorem dotL_map_neg (f : AbsTok → ℚ) (S : List AbsTok) (x : List ℚ) :
    dotL (S.map (fun t => -(f t))) x = -(wsum S x f) := by
  unfold dotL wsum
  rw [List.zipWith_map_left]
  have he : (fun (t : AbsTok) (c : ℚ) => -f t * c) = fun t c => Neg.neg (f t * c) := by
    funext t c
    ring
  rw [he, ← List.map_zipWith, sum_map_negq]

theorem buildRow_dot (L R : List AbsTok) (k : String) (x : List ℚ)
    (hlen : x.length = L.length + R.length) :
    dotL (buildRow L R (some k)) x
      = wsum L (x.take L.length) (fun t => lookupSym t k)
          - wsum R (x.drop L.length) (fun t => lookupSym t k) := by
  unfold buildRow
  rw [dotL_append _ _ _ (by simp [hlen])]
  simp only [List.length_map]
  rw [dotL_map_left, dotL_map_neg]
  ring

theorem dotL_zeros : ∀ (m : Nat) (x : List ℚ), dotL (List.replicate m 0) x = 0 := by
  intro m
  induction m with
  | zero => intro x; rfl
  | succ m ih =>
    intro x
    cases x with
    | nil => rfl
    | cons a x => simp [dotL, List.replicate_succ, List.zipWith_cons_cons] at ih ⊢; exact ih x

theorem dotL_unit :
    ∀ (j : Nat) (x : List ℚ) (n : Nat), x.length = n → j < n →
      dotL ((List.replicate n 0).set j 1) x = x.getD j 0 := by
  intro j
  induction j with
  | zero =>
    intro x n hx hj
    obtain ⟨m, rfl⟩ : ∃ m, n = m + 1 := ⟨n - 1, by omega⟩
    cases x with
    | nil => simp at hx
    | cons a x =>
      simp only [List.replicate_succ, List.set_cons_zero, dotL, List.zipWith_cons_cons,
        List.sum_cons, one_mul, List.getD_cons_zero]
      have := dotL_zeros m x
      unfold dotL at this
      rw [this]
      ring
  | succ j ih =>
    intro x n hx hj
    obtain ⟨m, rfl⟩ : ∃ m, n = m + 1 := ⟨n - 1, by omega⟩
    cases x with
    | nil => simp at hx
    | cons a x =>
      simp only [List.replicate_succ, List.set_cons_succ, dotL, List.zipWith_cons_cons,
        List.sum_cons, zero_mul, List.getD_cons_succ]
      have := ih x m (by simpa using hx) (by omega)
      unfold dotL at this
      rw [this]
      ring

theorem insertNew_mem (acc : List String) (k j : String) (h : j ∈ acc) :
    j ∈ insertNew acc k := by
  unfold insertNew
  split
  · exact h
  · exact List.mem_append_left _ h

theorem insertNew_self (acc : List String) (k : String) : k ∈ insertNew acc k := by
  unfold insertNew
  split
  · rename_i hc
    simpa using hc
  · exact List.mem_append_right _ (List.mem_singleton.mpr rfl)

theorem foldl_insertNew_preserve :
    ∀ (l acc : List String) (j : String), j ∈ acc → j ∈ l.foldl insertNew acc := by
  intro l
  induction l with
  | nil => intro acc j h; exact h
  | cons a l ih => intro acc j h; exact ih _ _ (insertNew_mem acc a j h)

theorem foldl_insertNew_incl :
    ∀ (l acc : List String) (j : String), j ∈ l → j ∈ l.foldl insertNew acc := by
  intro l
  induction l with
  | nil => intro acc j h; cases h
  | cons a l ih =>
    intro acc j h
    rcases List.mem_cons.mp h with rfl | h'
    · exact foldl_insertNew_preserve l _ j (insertNew_self acc j)
    · exact ih _ _ h'

theorem elemFold_preserve :
    ∀ (comps : List AbsTok) (acc : List String) (j : String),
      j ∈ acc → j ∈ comps.foldl (fun acc t => (tokKeys t).foldl insertNew acc) acc := by
  intro comps
  induction comps with
  | nil => intro acc j h; exact h
  | cons c cs ih =>
    intro acc j h
    exact ih _ _ (foldl_insertNew_preserve _ _ _ h)

theorem elemFold_mem :
    ∀ (comps : List AbsTok) (acc : List String) (t : AbsTok) (k : String),
      t ∈ comps → k ∈ tokKeys t →
      k ∈ comps.foldl (fun acc t => (tokKeys t).foldl insertNew acc) acc := by
  intro comps
  induction comps with
  | nil => intro acc t k ht _; cases ht
  | cons c cs ih =>
    intro acc t k ht hk
    rcases List.mem_cons.mp ht with rfl | ht'
    · exact elemFold_preserve cs _ k (foldl_insertNew_incl _ _ _ hk)
    · exact ih _ t k ht' hk

theorem elementsList_mem (comps : List AbsTok) (t : AbsTok) (k : String)
    (ht : t ∈ comps) (hk : k ∈ tokKeys t) : k ∈ elementsList comps :=
  elemFold_mem comps [] t k ht hk

theorem elementsList_charge_mem (comps : List AbsTok) (h : comps ≠ []) :
    "CHARGE" ∈ elementsList comps := by
  cases comps with
  | nil => exact absurd rfl h
  | cons c cs =>
    exact elementsList_mem _ c _ (List.mem_cons_self c cs) (List.mem_cons_self _ _)

theorem flatB_makeB (L R : List AbsTok) :
    flatB (makeAandB L R).2
      = List.replicate (elementsList (L ++ R)).length 0
          ++ [(pinnedIdxCoeff (L ++ R)).2] := by
  rw [makeB_eq]
  unfold flatB
  rw [List.map_append, List.map_replicate]
  rfl

/-- The row equation of any symbol present in the symbol list, for any `x`
that exactly satisfies the built system. -/
theorem row_equation (L R : List AbsTok) (x : List ℚ) (k : String)
    (hlen : x.length = L.length + R.length)
    (hsol : matVec (makeAandB L R).1 x = flatB (makeAandB L R).2)
    (hk : k ∈ elementsList (L ++ R)) :
    wsum L (x.take L.length) (fun t => lookupSym t k)
      = wsum R (x.drop L.length) (fun t => lookupSym t k) := by
  obtain ⟨i, hi, hget⟩ := List.getElem_of_mem hk
  have hk' : (elementsList (L ++ R))[i]? = some k := by
    rw [List.getElem?_eq_getElem hi, hget]
  have hrow := makeA_row_symbol L R i k hk'
  have hmv : (matVec (makeAandB L R).1 x)[i]? = some (dotL (buildRow L R (some k)) x) := by
    unfold matVec
    rw [List.getElem?_map, hrow]
    rfl
  have hfb : (flatB (makeAandB L R).2)[i]? = some 0 := by
    rw [flatB_makeB]
    rw [List.getElem?_append_left (by simpa using hi)]
    simp [hi]
  rw [hsol, hfb] at hmv
  have h0 : dotL (buildRow L R (some k)) x = 0 := (Option.some.inj hmv).symm
  rw [buildRow_dot L R k x hlen] at h0
  linarith

/-- C1, amended.  Whenever the (unrounded) coefficient vector exactly
satisfies the constructed linear system `A·x = B` — as it does whenever the
equation admits an exact balance, though not in general, since the solver
returns a least-squares solution and `compute` rounds it — conservation
holds: for every element symbol of the compounds, the coefficient-weighted
atom counts of the reactant side equal those of the product side, and the
same for charge (free-charge terms included). -/
theorem C1_conservation_amended (L R : List AbsTok) (x : List ℚ)
    (hlen : x.length = L.length + R.length)
    (hsol : matVec (makeAandB L R).1 x = flatB (makeAandB L R).2) :
    (∀ k ∈ ((L ++ R).map AbsTok.keys).flatten,
        wsum L (x.take L.length) (fun t => lookupSym t k)
          = wsum R (x.drop L.length) (fun t => lookupSym t k)) ∧
    wsum L (x.take L.length) AbsTok.charge = wsum R (x.drop L.length) AbsTok.charge := by
  constructor
  · intro k hk
    obtain ⟨ks, hks, hkk⟩ := List.mem_flatten.mp hk
    obtain ⟨t, ht, rfl⟩ := List.mem_map.mp hks
    refine row_equation L R x k hlen hsol ?_
    refine elementsList_mem _ t _ ht ?_
    exact List.mem_cons_of_mem _ hkk
  · by_cases hc : L.length + R.length = 0
    · have hL : L = [] := by
        cases L with
        | nil => rfl
        | cons a l => simp at hc
      have hR : R = [] := by
        cases R with
        | nil => rfl
        | cons a l => simp [hL] at hc
      subst hL hR
      rfl
    · have hch : "CHARGE" ∈ elementsList (L ++ R) := by
        apply elementsList_charge_mem
        intro hnil
        apply hc
        have := congrArg List.length hnil
        simpa using this
      have := row_equation L R x "CHARGE" hlen hsol hch
      simpa [lookupSym] using this

set_option maxHeartbeats 800000 in
unseal Rat.mul Rat.inv Rat.add Rat.sub in
/-- C1, witness: `H ⇒ H` with `x = (1, 1)` satisfies the system exactly and
conserves. -/
theorem C1_witness :
    ([(1 : ℚ), 1].length = [(⟨0, [("H", 1)], none⟩ : AbsTok)].length
        + [(⟨0, [("H", 1)], none⟩ : AbsTok)].length) ∧
    wsum [⟨0, [("H", 1)], none⟩] ([(1 : ℚ), 1].take 1) AbsTok.charge
      = wsum [⟨0, [("H", 1)], none⟩] ([(1 : ℚ), 1].drop 1) AbsTok.charge := by
  refine ⟨by decide, ?_⟩
  exact (C1_conservation_amended [⟨0, [("H", 1)], none⟩] [⟨0, [("H", 1)], none⟩]
    [1, 1] (by decide) (by decide)).2

/-- C3, amended.  Whenever the (unrounded) coefficient vector exactly
satisfies the constructed system `A·x = B` — in particular whenever the
equation admits an exact balance — the compound carrying the
default-coefficient marker receives exactly its declared value, and with no
marker the first compound receives exactly 1; for inconsistent systems the
least-squares solution (and the rounded returned coefficients) may deviate. -/
theorem C3_pinned_amended (L R : List AbsTok) (x : List ℚ)
    (h : L.length + R.length ≠ 0)
    (hlen : x.length = L.length + R.length)
    (hsol : matVec (makeAandB L R).1 x = flatB (makeAandB L R).2) :
    x.getD (pinnedIdxCoeff (L ++ R)).1 0 = (pinnedIdxCoeff (L ++ R)).2 := by
  have hrow := makeA_last_row L R h
  have hmv : (matVec (makeAandB L R).1 x)[(elementsList (L ++ R)).length]?
      = some (dotL ((List.replicate (L.length + R.length) 0).set
          (pinnedIdxCoeff (L ++ R)).1 1) x) := by
    unfold matVec
    rw [List.getElem?_map, hrow]
    rfl
  have hfb : (flatB (makeAandB L R).2)[(elementsList (L ++ R)).length]?
      = some (pinnedIdxCoeff (L ++ R)).2 := by
    rw [flatB_makeB]
    rw [List.getElem?_append_right (by simp)]
    simp
  rw [hsol, hfb] at hmv
  have h0 := dotL_unit (pinnedIdxCoeff (L ++ R)).1 x (L.length + R.length) hlen
    (pinnedIdx_lt' L R h)
  rw [h0] at hmv
  exact (Option.some.inj hmv).symm

set_option maxHeartbeats 800000 in
unseal Rat.mul Rat.inv Rat.add Rat.sub in
/-- C3, witness: with the product compound pinned to 3, the exact solution
`x = (3, 3)` of the built system assigns the pinned compound exactly 3. -/
theorem C3_witness :
    [(3 : ℚ), 3].getD
        (pinnedIdxCoeff ([⟨0, [("H", 1)], none⟩] ++ [⟨0, [("H", 1)], some 3⟩])).1 0
      = (pinnedIdxCoeff ([⟨0, [("H", 1)], none⟩] ++ [⟨0, [("H", 1)], some 3⟩])).2 :=
  C3_pinned_amended [⟨0, [("H", 1)], none⟩] [⟨0, [("H", 1)], some 3⟩] [3, 3]
    (by decide) (by decide) (by decide)

/-! ## C9: the scanner makes progress and is total -/

theorem skipSpaces_le : ∀ l : List Char, (skipSpaces l).length ≤ l.length := by
  intro l
  induction l with
  | nil => simp [skipSpaces]
  | cons c t ih =>
    simp only [skipSpaces]
    split
    · exact Nat.le_trans ih (by simp)
    · simp

theorem tail_le (l : List Char) : l.tail.length ≤ l.length := by
  cases l <;> simp

theorem spanB_append (p : Char → Bool) : ∀ l : List Char,
    (spanB p l).1 ++ (spanB p l).2 = l := by
  intro l
  induction l with
  | nil => rfl
  | cons c t ih =>
    simp only [spanB]
    split
    · simpa using ih
    · rfl

theorem spanB_len (p : Char → Bool) (l : List Char) :
    (spanB p l).1.length + (spanB p l).2.length = l.length := by
  have := congrArg List.length (spanB_append p l)
  simpa using this

theorem spanB_snd_le (p : Char → Bool) (l : List Char) :
    (spanB p l).2.length ≤ l.length := by
  have := spanB_len p l
  omega

theorem spanB_snd_lt (p : Char → Bool) (l : List Char)
    (h : (spanB p l).1 ≠ []) : (spanB p l).2.length < l.length := by
  have := spanB_len p l
  have h1 : (spanB p l).1.length ≠ 0 := by
    intro hc
    exact h (List.eq_nil_of_length_eq_zero hc)
  omega

theorem spanB_fst_ne_of_not_isEmpty (p : Char → Bool) (l : List Char)
    (h : (spanB p l).1.isEmpty = false) : (spanB p l).1 ≠ [] := by
  intro hc
  rw [hc] at h
  cases h

theorem matchNumTail_lt (sgn : ℚ) (l2 : List Char) (v : ℚ) (r : List Char)
    (h : matchNumTail sgn l2 = some (v, r)) : r.length < l2.length := by
  simp only [matchNumTail] at h
  have hs1le : (spanDigits l2).2.length ≤ l2.length := spanB_snd_le _ _
  split at h
  · -- no leading digits: the run after the dot is mandatory
    rename_i hempty
    split at h
    · rename_i hdot
      split at h
      · cases h
      · rename_i hne
        cases h
        have hlt : (spanDigits (skipSpaces (spanDigits l2).2.tail)).2.length
            < (skipSpaces (spanDigits l2).2.tail).length :=
          spanB_snd_lt _ _ (spanB_fst_ne_of_not_isEmpty _ _ (by simpa using hne))
        have ht : (spanDigits l2).2 ≠ [] := by
          intro hc
          rw [hc] at hdot
          cases hdot
        have h2 : (skipSpaces (spanDigits l2).2.tail).length
            ≤ (spanDigits l2).2.length - 1 := by
          have := skipSpaces_le ((spanDigits l2).2.tail)
          have h3 : (spanDigits l2).2.tail.length = (spanDigits l2).2.length - 1 :=
            List.length_tail _
          omega
        have h4 : 0 < (spanDigits l2).2.length := List.length_pos.mpr ht
        omega
    · cases h
  · -- leading digits are nonempty: every success ends at or after them
    rename_i hempty
    have hd1 : (spanDigits l2).1 ≠ [] :=
      spanB_fst_ne_of_not_isEmpty _ _ (by simpa using hempty)
    have hlt3 : (spanDigits l2).2.length < l2.length := spanB_snd_lt _ _ hd1
    split at h
    · split at h
      · cases h
        exact hlt3
      · cases h
        have hle : (spanDigits (skipSpaces (skipSpaces (spanDigits l2).2).tail)).2.length
            ≤ (skipSpaces (skipSpaces (spanDigits l2).2).tail).length := spanB_snd_le _ _
        have h2 := skipSpaces_le ((skipSpaces (spanDigits l2).2).tail)
        have h3 := tail_le (skipSpaces (spanDigits l2).2)
        have h4 := skipSpaces_le ((spanDigits l2).2)
        omega
    · split at h
      · cases h
        exact hlt3
      · cases h
        have hle : (spanDigits (skipSpaces (spanDigits l2).2)).2.length
            ≤ (skipSpaces (spanDigits l2).2).length := spanB_snd_le _ _
        have h4 := skipSpaces_le ((spanDigits l2).2)
        omega

theorem matchNumber_lt (l : List Char) (v : ℚ) (r : List Char)
    (h : matchNumber l = some (v, r)) : r.length < l.length := by
  unfold matchNumber at h
  split at h
  · have := matchNumTail_lt _ _ _ _ h
    simp [skipSpaces] at this
  · rename_i x t
    split at h
    · have := matchNumTail_lt _ _ _ _ h
      have h2 := skipSpaces_le t
      simp only [List.length_cons]
      omega
    · split at h
      · have := matchNumTail_lt _ _ _ _ h
        have h2 := skipSpaces_le t
        simp only [List.length_cons]
        omega
      · have := matchNumTail_lt _ _ _ _ h
        have h2 := skipSpaces_le (x :: t)
        omega

theorem headIs_pos (c : Char) (l : List Char) (h : headIs c l = true) : 0 < l.length := by
  cases l with
  | nil => cases h
  | cons x t => simp

theorem tryLeadMult_le (l : List Char) : (tryLeadMult l).2.length ≤ l.length := by
  unfold tryLeadMult
  split
  · exact Nat.le_refl _
  · rename_i v r heq
    split
    · have h1 := matchNumber_lt _ _ _ heq
      have h2 := skipSpaces_le l
      have h3 := skipSpaces_le r
      have h4 := tail_le (skipSpaces r)
      have h5 := skipSpaces_le ((skipSpaces r).tail)
      simp only []
      omega
    · exact Nat.le_refl _

theorem tryTrailMultE_le (l : List Char) : (tryTrailMultE l).2.length ≤ l.length := by
  unfold tryTrailMultE
  dsimp only
  split
  · rename_i hstar
    split
    · rename_i v r4 heq
      have h1 := matchNumber_lt _ _ _ heq
      have h5 := skipSpaces_le r4
      have h2 := skipSpaces_le l
      have h3 := tail_le (skipSpaces l)
      have h4 := skipSpaces_le ((skipSpaces l).tail)
      have h6 : (if headIs '+' (skipSpaces (skipSpaces l).tail)
          then skipSpaces (skipSpaces (skipSpaces l).tail).tail
          else skipSpaces (skipSpaces l).tail).length ≤ (skipSpaces (skipSpaces l).tail).length := by
        split
        · exact Nat.le_trans (skipSpaces_le _) (tail_le _)
        · exact Nat.le_refl _
      simp only []
      omega
    · exact Nat.le_refl _
  · exact Nat.le_refl _

theorem dropWhile_le (p : Char → Bool) : ∀ l : List Char, (l.dropWhile p).length ≤ l.length := by
  intro l
  induction l with
  | nil => simp
  | cons c t ih =>
    simp only [List.dropWhile]
    split
    · simp only [List.length_cons]
      omega
    · simp

theorem tryTrailMultF_le (l : List Char) : (tryTrailMultF l).2.length ≤ l.length := by
  unfold tryTrailMultF
  dsimp only
  split
  · rename_i hstar
    split
    · rename_i v r4 heq
      have h1 := matchNumber_lt _ _ _ heq
      have h5 : (r4.dropWhile (fun c => c = 's' || c = 'S')).length ≤ r4.length :=
        dropWhile_le _ _
      have h2 := skipSpaces_le l
      have h3 := tail_le (skipSpaces l)
      have h4 := skipSpaces_le ((skipSpaces l).tail)
      have h6 : (if headIs '+' (skipSpaces (skipSpaces l).tail)
          then skipSpaces (skipSpaces (skipSpaces l).tail).tail
          else skipSpaces (skipSpaces l).tail).length ≤ (skipSpaces (skipSpaces l).tail).length := by
        split
        · exact Nat.le_trans (skipSpaces_le _) (tail_le _)
        · exact Nat.le_refl _
      simp only []
      omega
    · exact Nat.le_refl _
  · exact Nat.le_refl _

theorem tryCharge_le (l : List Char) : (tryCharge l).2.length ≤ l.length := by
  unfold tryCharge
  split
  · split
    · rename_i v r2 heq
      have h1 := matchNumber_lt _ _ _ heq
      have h5 := skipSpaces_le r2
      have h2 := skipSpaces_le l
      have h3 := tail_le (skipSpaces l)
      have h4 := skipSpaces_le ((skipSpaces l).tail)
      simp only []
      omega
    · exact Nat.le_refl _
  · exact Nat.le_refl _

theorem lastIdxOf_lt (c : Char) : ∀ (l : List Char) (i : Nat),
    lastIdxOf c l = some i → i < l.length := by
  intro l
  induction l with
  | nil => intro i h; cases h
  | cons x t ih =>
    intro i h
    unfold lastIdxOf at h
    cases h' : lastIdxOf c t with
    | some j =>
      rw [h'] at h
      cases h
      have := ih j h'
      simp only [List.length_cons]
      omega
    | none =>
      rw [h'] at h
      by_cases hx : x = c
      · rw [if_pos hx] at h
        cases h
        simp
      · rw [if_neg hx] at h
        cases h

theorem sumAlt_facts (l : List Char) (m : RawMatch) (r : List Char)
    (h : sumAlt l = some (m, r)) : r.length < l.length ∧ m.inner = none := by
  unfold sumAlt at h
  split at h
  · cases h
    refine ⟨?_, rfl⟩
    rename_i hh
    have := headIs_pos _ _ hh
    have := tail_le l
    have h2 : l.tail.length = l.length - 1 := List.length_tail _
    omega
  · cases h

theorem yieldAlt_facts (l : List Char) (m : RawMatch) (r : List Char)
    (h : yieldAlt l = some (m, r)) : r.length < l.length ∧ m.inner = none := by
  unfold yieldAlt at h
  split at h
  · cases h
    refine ⟨?_, rfl⟩
    rename_i hh
    have := headIs_pos _ _ hh
    have h2 : l.tail.length = l.length - 1 := List.length_tail _
    omega
  · cases h

theorem freeChargeAlt_facts (l : List Char) (m : RawMatch) (r : List Char)
    (h : freeChargeAlt l = some (m, r)) : r.length < l.length ∧ m.inner = none := by
  unfold freeChargeAlt at h
  split at h
  · rename_i v r' heq
    cases h
    exact ⟨matchNumber_lt _ _ _ heq, rfl⟩
  · cases h

theorem elementAlt_facts (l : List Char) (m : RawMatch) (r : List Char)
    (h : elementAlt l = some (m, r)) : r.length < l.length ∧ m.inner = none := by
  unfold elementAlt at h
  dsimp only at h
  split at h
  · cases h
  · rename_i c l2 hlead
    split at h
    · cases h
      refine ⟨?_, rfl⟩
      have hlm : (tryLeadMult l).2.length ≤ l.length := tryLeadMult_le l
      rw [hlead] at hlm
      simp only [List.length_cons] at hlm
      have hnm : (match l2 with
          | [] => ([c], ([] : List Char))
          | d :: t => if isAlphaC d then ([c, d], t) else ([c], d :: t)).2.length
          ≤ l2.length := by
        cases l2 with
        | nil => simp
        | cons d t =>
          simp only []
          split
          · simp
          · simp
      have hmb := tryTrailMultE_le (match l2 with
          | [] => ([c], ([] : List Char))
          | d :: t => if isAlphaC d then ([c, d], t) else ([c], d :: t)).2
      have hch := tryCharge_le (tryTrailMultE (match l2 with
          | [] => ([c], ([] : List Char))
          | d :: t => if isAlphaC d then ([c, d], t) else ([c], d :: t)).2).2
      omega
    · cases h

theorem bracketAlt_facts (l : List Char) (m : RawMatch) (r : List Char)
    (h : bracketAlt l = some (m, r)) :
    r.length < l.length ∧ ∀ s, m.inner = some s → s.length + 2 ≤ l.length := by
  unfold bracketAlt at h
  dsimp only at h
  split at h
  · rename_i hbr
    split at h
    · cases h
    · rename_i content runTail hsplit
      cases h
      have hlm : (tryLeadMult l).2.length ≤ l.length := tryLeadMult_le l
      have hpos : 0 < (tryLeadMult l).2.length := headIs_pos _ _ hbr
      have htl : (tryLeadMult l).2.tail.length = (tryLeadMult l).2.length - 1 :=
        List.length_tail _
      -- the class run and its remainder partition the text after `[`
      have hspan := spanB_len isBracketClassC (tryLeadMult l).2.tail
      -- the split around the last `]`
      have hi : ∃ i, lastIdxOf ']' (spanB isBracketClassC (tryLeadMult l).2.tail).1 = some i ∧
          content = (spanB isBracketClassC (tryLeadMult l).2.tail).1.take i ∧
          runTail = (spanB isBracketClassC (tryLeadMult l).2.tail).1.drop (i + 1) := by
        unfold lastBracketSplit at hsplit
        cases hidx : lastIdxOf ']' (spanB isBracketClassC (tryLeadMult l).2.tail).1 with
        | none => rw [hidx] at hsplit; cases hsplit
        | some i =>
          rw [hidx] at hsplit
          cases hsplit
          exact ⟨i, rfl, rfl, rfl⟩
      obtain ⟨i, hidx, hcont, hrt⟩ := hi
      have hilt := lastIdxOf_lt _ _ _ hidx
      have hrtlen : runTail.length
          = (spanB isBracketClassC (tryLeadMult l).2.tail).1.length - (i + 1) := by
        rw [hrt, List.length_drop]
      have hcontlen : content.length = i := by
        rw [hcont, List.length_take]
        omega
      have hr0 : (runTail ++ (spanB isBracketClassC (tryLeadMult l).2.tail).2).length
          ≤ (tryLeadMult l).2.tail.length - 1 := by
        simp only [List.length_append]
        omega
      have hmb := tryTrailMultF_le (runTail ++ (spanB isBracketClassC (tryLeadMult l).2.tail).2)
      have hch := tryCharge_le (tryTrailMultF
        (runTail ++ (spanB isBracketClassC (tryLeadMult l).2.tail).2)).2
      constructor
      · omega
      · intro s hs
        simp only [] at hs
        split at hs
        · cases hs
        · cases hs
          omega
  · cases h

theorem tryAt_facts (l : List Char) (m : RawMatch) (r : List Char)
    (h : tryAt l = some (m, r)) :
    r.length < l.length ∧ ∀ s, m.inner = some s → s.length < l.length := by
  unfold tryAt at h
  cases h1 : sumAlt l with
  | some p =>
    rw [h1] at h
    cases h
    have := sumAlt_facts l m r h1
    exact ⟨this.1, by intro s hs; rw [this.2] at hs; cases hs⟩
  | none =>
    rw [h1] at h
    cases h2 : bracketAlt l with
    | some p =>
      rw [h2] at h
      cases h
      have := bracketAlt_facts l m r h2
      exact ⟨this.1, fun s hs => by have := this.2 s hs; omega⟩
    | none =>
      rw [h2] at h
      cases h3 : elementAlt l with
      | some p =>
        rw [h3] at h
        cases h
        have := elementAlt_facts l m r h3
        exact ⟨this.1, by intro s hs; rw [this.2] at hs; cases hs⟩
      | none =>
        rw [h3] at h
        cases h4 : freeChargeAlt l with
        | some p =>
          rw [h4] at h
          cases h
          have := freeChargeAlt_facts l m r h4
          exact ⟨this.1, by intro s hs; rw [this.2] at hs; cases hs⟩
        | none =>
          rw [h4] at h
          have := yieldAlt_facts l m r h
          exact ⟨this.1, by intro s hs; rw [this.2] at hs; cases hs⟩

theorem exec_facts :
    ∀ (l : List Char) (m : RawMatch) (r : List Char),
      exec l = some (m, r) →
      r.length < l.length ∧ ∀ s, m.inner = some s → s.length < l.length := by
  intro l
  induction l with
  | nil => intro m r h; cases h
  | cons c t ih =>
    intro m r h
    unfold exec at h
    cases h1 : tryAt (c :: t) with
    | some p =>
      rw [h1] at h
      cases h
      exact tryAt_facts _ m r h1
    | none =>
      rw [h1] at h
      have := ih m r h
      refine ⟨?_, fun s hs => ?_⟩
      · have := this.1
        simp only [List.length_cons]
        omega
      · have := this.2 s hs
        simp only [List.length_cons]
        omega

theorem scanFL_isSome :
    ∀ (fuel : Nat) (l : List Char), l.length < fuel → (scanFL fuel l).isSome = true := by
  intro fuel
  induction fuel with
  | zero => intro l h; omega
  | succ fuel ih =>
    intro l hl
    unfold scanFL
    cases hx : exec l with
    | none => rfl
    | some p =>
      obtain ⟨m, rest⟩ := p
      have hf := exec_facts l m rest hx
      have hrest : (scanFL fuel rest).isSome = true := ih rest (by omega)
      obtain ⟨ts, hts⟩ := Option.isSome_iff_exists.mp hrest
      cases hin : m.inner with
      | none =>
        simp only [hin, hts]
        rfl
      | some s =>
        by_cases hlen : s.length > 2
        · have hs : (scanFL fuel s).isSome = true := by
            have := hf.2 s hin
            exact ih s (by omega)
          obtain ⟨inner, hinner⟩ := Option.isSome_iff_exists.mp hs
          simp only [hin, hlen, if_true, hinner, Option.map_some', hts]
          rfl
        · simp only [hin, hlen, if_false, hts]
          rfl

/-- C9: `scan` is total.  Every successful `exec` step consumes at least one
character (no alternative of the pattern can match the empty string, so the
zero-width-match guard of the source is never needed but progress still
holds), every recursively scanned bracket content is strictly shorter than
its input, and therefore the scanning loop with fuel `length + 1` always
returns an AST — `scan` never raises an error. -/
theorem C9_scan_progress_total :
    (∀ (l : List Char) (m : RawMatch) (r : List Char),
        exec l = some (m, r) → r.length < l.length) ∧
    (∀ s : String, (scanFL (s.toList.length + 1) s.toList).isSome = true) :=
  ⟨fun l m r h => (exec_facts l m r h).1,
   fun s => scanFL_isSome (s.toList.length + 1) s.toList (Nat.lt_succ_self _)⟩

/-- C9, witness: one concrete `exec` step makes progress, and `scan` is
defined on a concrete string. -/
theorem C9_witness :
    ([] : List Char).length < "H".toList.length ∧
    (scanFL ("H".toList.length + 1) "H".toList).isSome = true :=
  ⟨(C9_scan_progress_total.1 "H".toList
      ⟨false, false, some "H", none, none, none, none⟩ [] (by decide)),
   C9_scan_progress_total.2 "H"⟩

/-! ## C10 -/

theorem bracketAlt_element (l : List Char) (m : RawMatch) (r : List Char)
    (h : bracketAlt l = some (m, r)) : m.element = none := by
  unfold bracketAlt at h
  dsimp only at h
  split at h
  · split at h
    · cases h
    · cases h
      rfl
  · cases h

theorem tryAt_element_none (l : List Char) (m : RawMatch) (r : List Char) (s : List Char)
    (h : tryAt l = some (m, r)) (hs : m.inner = some s) : m.element = none := by
  unfold tryAt at h
  cases h1 : sumAlt l with
  | some p =>
    rw [h1] at h
    cases h
    rw [(sumAlt_facts l m r h1).2] at hs
    cases hs
  | none =>
    rw [h1] at h
    cases h2 : bracketAlt l with
    | some p =>
      rw [h2] at h
      cases h
      exact bracketAlt_element l m r h2
    | none =>
      rw [h2] at h
      cases h3 : elementAlt l with
      | some p =>
        rw [h3] at h
        cases h
        rw [(elementAlt_facts l m r h3).2] at hs
        cases hs
      | none =>
        rw [h3] at h
        cases h4 : freeChargeAlt l with
        | some p =>
          rw [h4] at h
          cases h
          rw [(freeChargeAlt_facts l m r h4).2] at hs
          cases hs
        | none =>
          rw [h4] at h
          rw [(yieldAlt_facts l m r h).2] at hs
          cases hs

theorem exec_element_none :
    ∀ (l : List Char) (m : RawMatch) (r : List Char) (s : List Char),
      exec l = some (m, r) → m.inner = some s → m.element = none := by
  intro l
  induction l with
  | nil => intro m r s h _; cases h
  | cons c t ih =>
    intro m r s h hs
    unfold exec at h
    cases h1 : tryAt (c :: t) with
    | some p =>
      rw [h1] at h
      cases h
      exact tryAt_element_none _ m r s h1 hs
    | none =>
      rw [h1] at h
      exact ih m r s h hs

/-- C10: whenever a match carries bracket content of raw length at most 2,
`scan` keeps the `Formula` body as the raw string (no recursive scan), and
simplifying the resulting token yields a compound with an empty element map
— only the charge (`CHARGE || 0`) and, at top level, the possible pinned
marker — so such a compound contributes no element names to the validator
and no atom counts to the linear system. -/
theorem C10_short_bracket (l : List Char) (m : RawMatch) (rest s : List Char)
    (hexec : exec l = some (m, rest)) (hinner : m.inner = some s)
    (hshort : ¬ s.length > 2) :
    ∃ ts, scanL l = TokList.cons
        (Tok.mk m.sum m.yld m.element (.raw s) m.count m.charge m.free) ts ∧
      ∀ b, simplifyCompound
          (Tok.mk m.sum m.yld m.element (.raw s) m.count m.charge m.free) b
        = some ⟨jsOr0 m.charge, [],
            if b = false && truthyQ m.count then m.count else none⟩ := by
  have hfacts := exec_facts l m rest hexec
  have hel : m.element = none := exec_element_none l m rest s hexec hinner
  have hrest : (scanFL l.length rest).isSome = true :=
    scanFL_isSome l.length rest hfacts.1
  obtain ⟨ts, hts⟩ := Option.isSome_iff_exists.mp hrest
  refine ⟨ts, ?_, ?_⟩
  · unfold scanL
    show (scanFL (l.length + 1) l).getD .nil = _
    unfold scanFL
    rw [hexec]
    simp only [hinner, hshort, if_false, hts]
    rfl
  · intro b
    rw [hel]
    rfl

/-- C10, witness: `[H]` scans to a raw-bodied formula token whose
simplification has no element entries. -/
theorem C10_witness :
    ∃ ts, scanL "[H]".toList = TokList.cons
        (Tok.mk false false none (.raw ['H']) none none none) ts ∧
      ∀ b, simplifyCompound (Tok.mk false false none (.raw ['H']) none none none) b
        = some ⟨jsOr0 none, [],
            if b = false && truthyQ none then none else none⟩ :=
  C10_short_bracket "[H]".toList ⟨false, false, none, some ['H'], none, none, none⟩
    [] ['H'] (by decide) rfl (by decide)

/-! ## C5 -/

/-- C5, counterexample.  The charge suffix of the element alternative is
optional in the source pattern (the `?` after the charge group), so `scan`
produces a bare `Element` token with no charge from the input `H`. -/
theorem C5_counterexample :
    (scan "H").map (fun t => (t.sum, t.yld, t.element, t.charge, t.count, t.free))
      = [(false, false, some "H", none, none, none)] := rfl

/-- C5: the element alternative of the pattern — an optional leading
multiplier, an uppercase letter optionally followed by a lowercase one (both
case-insensitively), optional trailing multiplier and optional `^`-charge —
matches every single uppercase letter on its own: `scan` turns it into one
`Element` token whose count, charge and free-charge fields are all absent,
showing in particular that the charge group is optional, not mandatory. -/
theorem C5_element_optional_charge (c : Char) (h1 : 65 ≤ c.toNat) (h2 : c.toNat ≤ 90) :
    scan (String.mk [c])
      = [Tok.mk false false (some (String.mk [c])) .nb none none none] := by
  have hplus : ¬ (c = '+') := fun h => by subst h; exact absurd h1 (by decide)
  have hminus : ¬ (c = '-') := fun h => by subst h; exact absurd h1 (by decide)
  have hdot : ¬ (c = '.') := fun h => by subst h; exact absurd h1 (by decide)
  have hlb : ¬ (c = '[') := fun h => by subst h; exact absurd h2 (by decide)
  have hsp : isSpaceC c = false := by
    simp only [isSpaceC, Bool.or_eq_false_iff, decide_eq_false_iff_not]
    omega
  have hdig : isDigitC c = false := by
    simp only [isDigitC, Bool.and_eq_false_iff, decide_eq_false_iff_not]
    omega
  have halpha : isAlphaC c = true := by
    simp only [isAlphaC, Bool.or_eq_true, Bool.and_eq_true, decide_eq_true_eq]
    omega
  have hskip : skipSpaces [c] = [c] := by simp [skipSpaces, hsp]
  have hspan : spanDigits [c] = ([], [c]) := by simp [spanDigits, spanB, hdig]
  have hnum : matchNumber [c] = none := by
    simp [matchNumber, matchNumTail, hplus, hminus, hskip, hspan, headIs, hdot]
  have hlead : tryLeadMult [c] = (none, [c]) := by simp [tryLeadMult, hskip, hnum]
  have hsum : sumAlt [c] = none := by simp [sumAlt, headIs, hplus]
  have hbr : bracketAlt [c] = none := by simp [bracketAlt, hlead, headIs, hlb]
  have helem : elementAlt [c]
      = some (⟨false, false, some (String.mk [c]), none, none, none, none⟩, []) := by
    simp [elementAlt, hlead, halpha, tryTrailMultE, tryCharge, skipSpaces,
          headIs, combineCount, RawMatch.empty]
  have htry : tryAt [c]
      = some (⟨false, false, some (String.mk [c]), none, none, none, none⟩, []) := by
    simp [tryAt, hsum, hbr, helem]
  have hexec : exec [c]
      = some (⟨false, false, some (String.mk [c]), none, none, none, none⟩, []) := by
    simp [exec, htry]
  have hscan : scanFL 2 [c]
      = some (.cons (Tok.mk false false (some (String.mk [c])) .nb none none none) .nil) := by
    simp [scanFL, hexec]
    rfl
  show (scanL [c]).toList = _
  unfold scanL
  rw [show [c].length + 1 = 2 from rfl, hscan]
  rfl

/-- C5, witness: the uppercase letter `H` alone scans to a bare element
token with no charge. -/
theorem C5_witness :
    (65 ≤ Char.toNat 'H' ∧ Char.toNat 'H' ≤ 90) ∧
    scan (String.mk ['H'])
      = [Tok.mk false false (some (String.mk ['H'])) .nb none none none] :=
  ⟨by decide, C5_element_optional_charge 'H' (by decide) (by decide)⟩

/-! ## C4 -/

set_option maxHeartbeats 1600000 in
unseal Rat.mul Rat.inv Rat.add Rat.sub in
/-- C4, counterexample.  On the AST of `[H*2]⇒[H*2]` the stringifier renders
the hydrogen count as the subscript glyph `₂`, which the scanner cannot
re-parse: the re-scanned AST's compounds carry atom count 1 where the
original carried 2, so the round-trip is not structurally equivalent. -/
theorem C4_counterexample :
    stringify (scan "[H*2]⇒[H*2]") = "H₂ ⇒ H₂ " ∧
    (scan "[H*2]⇒[H*2]").map (fun t => (simplifyCompound t false).map AbsTok.atoms)
      = [some [("H", 2)], none, some [("H", 2)]] ∧
    (scan (stringify (scan "[H*2]⇒[H*2]"))).map
        (fun t => (simplifyCompound t false).map AbsTok.atoms)
      = [some [("H", 1)], none, some [("H", 1)]] := by
  refine ⟨by decide, by decide, by decide⟩

theorem toList_ofTokList : ∀ ts : List Tok, (ofTokList ts).toList = ts
  | [] => rfl
  | t :: ts => by simp [ofTokList, TokList.toList, toList_ofTokList ts]

theorem alphaFacts (c : Char) (h : isAlphaC c = true) :
    isSpaceC c = false ∧ isDigitC c = false ∧ c ≠ '+' ∧ c ≠ '-' ∧ c ≠ '.' ∧
      c ≠ '[' ∧ c ≠ '*' ∧ c ≠ '^' ∧ c ≠ '⇒' := by
  have hb : (65 ≤ c.toNat ∧ c.toNat ≤ 90) ∨ (97 ≤ c.toNat ∧ c.toNat ≤ 122) := by
    simpa [isAlphaC, Bool.or_eq_true, Bool.and_eq_true, decide_eq_true_eq] using h
  refine ⟨?_, ?_, ?_, ?_, ?_, ?_, ?_, ?_, ?_⟩
  · simp only [isSpaceC, Bool.or_eq_false_iff, decide_eq_false_iff_not]
    rcases hb with ⟨h1, h2⟩ | ⟨h1, h2⟩ <;> omega
  · simp only [isDigitC, Bool.and_eq_false_iff, decide_eq_false_iff_not]
    rcases hb with ⟨h1, h2⟩ | ⟨h1, h2⟩ <;> omega
  · exact fun he => by subst he; exact absurd hb (by decide)
  · exact fun he => by subst he; exact absurd hb (by decide)
  · exact fun he => by subst he; exact absurd hb (by decide)
  · exact fun he => by subst he; exact absurd hb (by decide)
  · exact fun he => by subst he; exact absurd hb (by decide)
  · exact fun he => by subst he; exact absurd hb (by decide)
  · exact fun he => by subst he; exact absurd hb (by decide)

theorem spanDigits_not (c : Char) (l : List Char) (h : isDigitC c = false) :
    spanDigits (c :: l) = ([], c :: l) := by
  simp [spanDigits, spanB, h]

theorem matchNumTail_not (sgn : ℚ) (c : Char) (l : List Char)
    (h1 : isDigitC c = false) (h2 : c ≠ '.') :
    matchNumTail sgn (c :: l) = none := by
  simp [matchNumTail, spanDigits_not c l h1, headIs, h2]

theorem matchNumber_not (c : Char) (l : List Char) (h1 : isDigitC c = false)
    (h2 : c ≠ '.') (h3 : c ≠ '+') (h4 : c ≠ '-') (h5 : isSpaceC c = false) :
    matchNumber (c :: l) = none := by
  simp [matchNumber, h3, h4, skipSpaces, h5, matchNumTail_not 1 c l h1 h2]

theorem restOK_nil : restOK [] :=
  ⟨rfl, rfl, fun _ => rfl, rfl, rfl⟩

theorem toList_append (a b : String) : (a ++ b).toList = a.toList ++ b.toList :=
  String.data_append a b

theorem stringify_fold :
    ∀ (l : List Tok) (a : String),
      (l.foldl (fun acc obj => acc ++ tokStr obj ++ " ") a).toList
        = a.toList ++ (l.foldl (fun acc obj => acc ++ tokStr obj ++ " ") "").toList
  | [], a => by simp
  | t :: l, a => by
    simp only [List.foldl_cons]
    rw [stringify_fold l (a ++ tokStr t ++ " "), stringify_fold l ("" ++ tokStr t ++ " ")]
    simp [toList_append, List.append_assoc]

theorem renderL_cons (t : Tok) (ts : List Tok) :
    renderL (t :: ts) = (tokStr t).toList ++ ' ' :: renderL ts := by
  show (stringify (t :: ts)).toList = _
  unfold stringify
  simp only [List.foldl_cons]
  rw [stringify_fold ts ("" ++ tokStr t ++ " ")]
  simp [toList_append, renderL, stringify]

theorem simple_cases (t : Tok) (h : simpleTokB t = true) :
    (∃ el, t = Tok.mk false false (some el) .nb none none none ∧
        el.toList ≠ [] ∧ el.toList.length ≤ 2 ∧ el.toList.all isAlphaC = true) ∨
      t = Tok.mk true false none .nb none none none ∨
      t = Tok.mk false true none .nb none none none := by
  cases t with
  | mk s y el br cnt chg fr =>
    cases s <;> cases y <;> cases el <;> cases br <;> cases cnt <;> cases chg <;>
      cases fr <;> simp_all [simpleTokB]

theorem tokStr_elt (el : String) :
    (tokStr (Tok.mk false false (some el) .nb none none none)).toList = el.toList := by
  simp [tokStr, stringifyElement, Tok.element, Tok.count, Tok.charge, Tok.bracket,
        Tok.free, Tok.yld, Tok.sum, toList_append]

theorem exec_plus (l : List Char) :
    exec ('+' :: l) = some (⟨true, false, none, none, none, none, none⟩, l) := rfl

theorem exec_yield (l : List Char) :
    exec ('⇒' :: l) = some (⟨false, true, none, none, none, none, none⟩, l) := rfl

theorem exec_elt1 (c : Char) (l : List Char) (hc : isAlphaC c = true) (h : restOK l) :
    exec (c :: ' ' :: l)
      = some (⟨false, false, some (String.mk [c]), none, none, none, none⟩, ' ' :: l) := by
  obtain ⟨hsk, hnum, hnt, hstar, hhat⟩ := h
  obtain ⟨hsp, hdig, hplus, hminus, hdot, hlb, hast, hcar, hyl⟩ := alphaFacts c hc
  have hspAlpha : isAlphaC ' ' = false := rfl
  have hnum0 : matchNumber (c :: ' ' :: l) = none :=
    matchNumber_not c _ hdig hdot hplus hminus hsp
  have hlead : tryLeadMult (c :: ' ' :: l) = (none, c :: ' ' :: l) := by
    simp [tryLeadMult, skipSpaces, hsp, hnum0]
  have hsum : sumAlt (c :: ' ' :: l) = none := by simp [sumAlt, headIs, hplus]
  have hbr : bracketAlt (c :: ' ' :: l) = none := by
    simp [bracketAlt, hlead, headIs, hlb]
  have hskl : skipSpaces (' ' :: l) = l := hsk
  have htme : tryTrailMultE (' ' :: l) = (none, ' ' :: l) := by
    simp [tryTrailMultE, hskl, hstar]
  have htc : tryCharge (' ' :: l) = (none, ' ' :: l) := by
    simp [tryCharge, hskl, hhat]
  have helem : elementAlt (c :: ' ' :: l)
      = some (⟨false, false, some (String.mk [c]), none, none, none, none⟩, ' ' :: l) := by
    simp [elementAlt, hlead, hc, hspAlpha, htme, htc, combineCount, RawMatch.empty]
  simp [exec, tryAt, hsum, hbr, helem]

theorem exec_elt2 (c d : Char) (l : List Char) (hc : isAlphaC c = true)
    (hd : isAlphaC d = true) (h : restOK l) :
    exec (c :: d :: ' ' :: l)
      = some (⟨false, false, some (String.mk [c, d]), none, none, none, none⟩, ' ' :: l) := by
  obtain ⟨hsk, hnum, hnt, hstar, hhat⟩ := h
  obtain ⟨hsp, hdig, hplus, hminus, hdot, hlb, hast, hcar, hyl⟩ := alphaFacts c hc
  have hnum0 : matchNumber (c :: d :: ' ' :: l) = none :=
    matchNumber_not c _ hdig hdot hplus hminus hsp
  have hlead : tryLeadMult (c :: d :: ' ' :: l) = (none, c :: d :: ' ' :: l) := by
    simp [tryLeadMult, skipSpaces, hsp, hnum0]
  have hsum : sumAlt (c :: d :: ' ' :: l) = none := by simp [sumAlt, headIs, hplus]
  have hbr : bracketAlt (c :: d :: ' ' :: l) = none := by
    simp [bracketAlt, hlead, headIs, hlb]
  have hskl : skipSpaces (' ' :: l) = l := hsk
  have htme : tryTrailMultE (' ' :: l) = (none, ' ' :: l) := by
    simp [tryTrailMultE, hskl, hstar]
  have htc : tryCharge (' ' :: l) = (none, ' ' :: l) := by
    simp [tryCharge, hskl, hhat]
  have helem : elementAlt (c :: d :: ' ' :: l)
      = some (⟨false, false, some (String.mk [c, d]), none, none, none, none⟩, ' ' :: l) := by
    simp [elementAlt, hlead, hc, hd, htme, htc, combineCount, RawMatch.empty]
  simp [exec, tryAt, hsum, hbr, helem]

theorem tryAt_space (l : List Char) (h : restOK l) : tryAt (' ' :: l) = none := by
  obtain ⟨hsk, hnum, hnt, hstar, hhat⟩ := h
  have hskl : skipSpaces (' ' :: l) = l := hsk
  have hnum' : matchNumber (' ' :: l) = none := by
    show matchNumTail 1 (skipSpaces (' ' :: l)) = none
    rw [hskl]
    exact hnt 1
  have hsum : sumAlt (' ' :: l) = none := rfl
  have hlead : tryLeadMult (' ' :: l) = (none, ' ' :: l) := by
    unfold tryLeadMult
    rw [hskl, hnum]
  have hbr : bracketAlt (' ' :: l) = none := by
    have hlbFalse : headIs '[' (' ' :: l) = false := rfl
    simp [bracketAlt, hlead, hlbFalse]
  have helem : elementAlt (' ' :: l) = none := by
    have hspAlpha : isAlphaC ' ' = false := rfl
    simp [elementAlt, hlead, hspAlpha]
  have hfc : freeChargeAlt (' ' :: l) = none := by simp [freeChargeAlt, hnum']
  have hyl : yieldAlt (' ' :: l) = none := rfl
  simp [tryAt, hsum, hbr, helem, hfc, hyl]

theorem exec_space (l : List Char) (h : restOK l) : exec (' ' :: l) = exec l := by
  simp only [exec]
  rw [tryAt_space l h]

theorem scanFL_space (f : Nat) (l : List Char) (h : restOK l) :
    scanFL (f + 1) (' ' :: l) = scanFL (f + 1) l := by
  unfold scanFL
  rw [exec_space l h]

theorem scanFL_step (f : Nat) (l rest : List Char) (m : RawMatch) (ts' : TokList)
    (hex : exec l = some (m, rest)) (hinner : m.inner = none)
    (hrec : scanFL f rest = some ts') :
    scanFL (f + 1) l
      = some (.cons (Tok.mk m.sum m.yld m.element .nb m.count m.charge m.free) ts') := by
  unfold scanFL
  rw [hex]
  simp only [hinner, hrec]

theorem restOK_render : ∀ ts : List Tok, ts.all simpleTokB = true → restOK (renderL ts)
  | [], _ => restOK_nil
  | t :: ts, h => by
    rw [List.all_cons, Bool.and_eq_true] at h
    obtain ⟨ht, hts⟩ := h
    obtain ⟨hsk, hnum, hnt, hstar, hhat⟩ := restOK_render ts hts
    rcases simple_cases t ht with ⟨el, rfl, hne, hlen, halpha⟩ | rfl | rfl
    · obtain ⟨c, w, hlist, hc⟩ : ∃ c w, el.toList = c :: w ∧ isAlphaC c = true := by
        cases hl : el.toList with
        | nil => exact absurd hl hne
        | cons c w =>
          rw [hl] at halpha
          rw [List.all_cons, Bool.and_eq_true] at halpha
          exact ⟨c, w, rfl, halpha.1⟩
      obtain ⟨hsp, hdig, hplus, hminus, hdot, hlb, hast, hcar, hyl⟩ := alphaFacts c hc
      have hr : renderL (Tok.mk false false (some el) .nb none none none :: ts)
          = c :: (w ++ ' ' :: renderL ts) := by
        rw [renderL_cons, tokStr_elt, hlist]
        rfl
      rw [hr]
      refine ⟨?_, ?_, ?_, ?_, ?_⟩
      · simp [skipSpaces, hsp]
      · exact matchNumber_not c _ hdig hdot hplus hminus hsp
      · exact fun sgn => matchNumTail_not sgn c _ hdig hdot
      · simp [headIs, hast]
      · simp [headIs, hcar]
    · have hr : renderL (Tok.mk true false none .nb none none none :: ts)
          = '+' :: ' ' :: renderL ts := by
        rw [renderL_cons]
        rfl
      rw [hr]
      refine ⟨rfl, ?_, fun sgn => rfl, rfl, rfl⟩
      show matchNumTail 1 (skipSpaces (renderL ts)) = none
      rw [hsk]
      exact hnt 1
    · have hr : renderL (Tok.mk false true none .nb none none none :: ts)
          = '⇒' :: ' ' :: renderL ts := by
        rw [renderL_cons]
        rfl
      rw [hr]
      exact ⟨rfl, rfl, fun sgn => rfl, rfl, rfl⟩

theorem scan_simple_aux :
    ∀ ts : List Tok, ts.all simpleTokB = true →
      ∀ f : Nat, (renderL ts).length < f → scanFL f (renderL ts) = some (ofTokList ts)
  | [], _, f, hf => by
    obtain ⟨f1, rfl⟩ : ∃ f1, f = f1 + 1 := ⟨f - 1, by omega⟩
    rfl
  | t :: ts, h, f, hf => by
    rw [List.all_cons, Bool.and_eq_true] at h
    obtain ⟨ht, hts⟩ := h
    have hrest := restOK_render ts hts
    rcases simple_cases t ht with ⟨el, rfl, hne, hlen, halpha⟩ | rfl | rfl
    · obtain ⟨data⟩ := el
      match hl : (String.mk data).toList, hlen, hne with
      | [c], _, _ =>
        have hdata : data = [c] := hl
        subst hdata
        rw [hl] at halpha
        rw [List.all_cons, Bool.and_eq_true] at halpha
        have hc := halpha.1
        have hr : renderL (Tok.mk false false (some (String.mk [c])) .nb none none none :: ts)
            = c :: ' ' :: renderL ts := by
          rw [renderL_cons, tokStr_elt, hl]
          rfl
        rw [hr] at hf ⊢
        simp only [List.length_cons] at hf
        obtain ⟨f2, rfl⟩ : ∃ f2, f = f2 + 1 + 1 := ⟨f - 2, by omega⟩
        have hrec : scanFL (f2 + 1) (' ' :: renderL ts) = some (ofTokList ts) := by
          rw [scanFL_space f2 _ hrest]
          exact scan_simple_aux ts hts (f2 + 1) (by omega)
        exact scanFL_step (f2 + 1) _ _ _ _ (exec_elt1 c (renderL ts) hc hrest) rfl hrec
      | [c, d], _, _ =>
        have hdata : data = [c, d] := hl
        subst hdata
        rw [hl] at halpha
        rw [List.all_cons, Bool.and_eq_true] at halpha
        have hc := halpha.1
        have hd := (by rw [List.all_cons, Bool.and_eq_true] at halpha; exact halpha.2.1 :
          isAlphaC d = true)
        have hr : renderL (Tok.mk false false (some (String.mk [c, d])) .nb none none none :: ts)
            = c :: d :: ' ' :: renderL ts := by
          rw [renderL_cons, tokStr_elt, hl]
          rfl
        rw [hr] at hf ⊢
        simp only [List.length_cons] at hf
        obtain ⟨f2, rfl⟩ : ∃ f2, f = f2 + 1 + 1 := ⟨f - 2, by omega⟩
        have hrec : scanFL (f2 + 1) (' ' :: renderL ts) = some (ofTokList ts) := by
          rw [scanFL_space f2 _ hrest]
          exact scan_simple_aux ts hts (f2 + 1) (by omega)
        exact scanFL_step (f2 + 1) _ _ _ _ (exec_elt2 c d (renderL ts) hc hd hrest) rfl hrec
    · have hr : renderL (Tok.mk true false none .nb none none none :: ts)
          = '+' :: ' ' :: renderL ts := by
        rw [renderL_cons]
        rfl
      rw [hr] at hf ⊢
      simp only [List.length_cons] at hf
      obtain ⟨f2, rfl⟩ : ∃ f2, f = f2 + 1 + 1 := ⟨f - 2, by omega⟩
      have hrec : scanFL (f2 + 1) (' ' :: renderL ts) = some (ofTokList ts) := by
        rw [scanFL_space f2 _ hrest]
        exact scan_simple_aux ts hts (f2 + 1) (by omega)
      exact scanFL_step (f2 + 1) _ _ _ _ (exec_plus (' ' :: renderL ts)) rfl hrec
    · have hr : renderL (Tok.mk false true none .nb none none none :: ts)
          = '⇒' :: ' ' :: renderL ts := by
        rw [renderL_cons]
        rfl
      rw [hr] at hf ⊢
      simp only [List.length_cons] at hf
      obtain ⟨f2, rfl⟩ : ∃ f2, f = f2 + 1 + 1 := ⟨f - 2, by omega⟩
      have hrec : scanFL (f2 + 1) (' ' :: renderL ts) = some (ofTokList ts) := by
        rw [scanFL_space f2 _ hrest]
        exact scan_simple_aux ts hts (f2 + 1) (by omega)
      exact scanFL_step (f2 + 1) _ _ _ _ (exec_yield (' ' :: renderL ts)) rfl hrec

/-- C4: on the token family on which the stringifier's rendering stays inside
the scanner's grammar — operator tokens (`+`, `⇒`) and bare element tokens
(one- or two-letter names, with count, charge, bracket body and free charge
all absent) — `scan ∘ stringify` is the identity, so the round-trip produces
a structurally equal AST.  (Outside this family the round-trip is lossy: the
counterexample shows subscript counts are not re-parsed.) -/
theorem C4_roundtrip_simple (ts : List Tok) (h : ts.all simpleTokB = true) :
    scan (stringify ts) = ts := by
  have hmain := scan_simple_aux ts h ((renderL ts).length + 1) (Nat.lt_succ_self _)
  show (scanL (stringify ts).toList).toList = ts
  unfold scanL
  rw [show (stringify ts).toList = renderL ts from rfl, hmain]
  exact toList_ofTokList ts

/-- C4, witness: the five-token AST `H + Na ⇒ O` (bare elements and
operators) renders and re-scans to itself. -/
theorem C4_witness :
    ([Tok.mk false false (some "H") .nb none none none,
      Tok.mk true false none .nb none none none,
      Tok.mk false false (some "Na") .nb none none none,
      Tok.mk false true none .nb none none none,
      Tok.mk false false (some "O") .nb none none none].all simpleTokB = true) ∧
    scan (stringify
      [Tok.mk false false (some "H") .nb none none none,
       Tok.mk true false none .nb none none none,
       Tok.mk false false (some "Na") .nb none none none,
       Tok.mk false true none .nb none none none,
       Tok.mk false false (some "O") .nb none none none])
      = [Tok.mk false false (some "H") .nb none none none,
         Tok.mk true false none .nb none none none,
         Tok.mk false false (some "Na") .nb none none none,
         Tok.mk false true none .nb none none none,
         Tok.mk false false (some "O") .nb none none none] :=
  ⟨by decide, C4_roundtrip_simple _ (by decide)⟩

end Chem
